import Mathlib

/-!
Shallow embedding of the `maptile` crate (FreemapSlovakia/maptile) and proofs
of the spec claims about it.

Modelling conventions:
* Machine integers (`u8`, `u32`) are modelled as unbounded `Nat`.  The wrap of
  `u32` arithmetic only matters outside the documented domain
  (`zoom` small, `x, y < 2^zoom`, the library "trusts callers on bounds"),
  except inside `children_buffered`, whose wrap-around arithmetic is
  translated literally.  `x >> 1` is written `x / 2`, `x & ((1 << k) - 1)`
  is written `x % 2 ^ k`.
* `f64` values are modelled by `F64`: an exact rational or one of the
  special values `inf`, `neginf`, `nan`.  Arithmetic on the rational part is
  exact (IEEE rounding is idealised away); `std::f64::consts::PI` is the
  exact rational value of the 64-bit floating point constant.
* Fallible parsing returns `Except`, mirroring `Result`; iterators are
  modelled by explicit state (`TileIterator`) with a pure `next` returning
  the emitted item and the successor state, mirroring `next(&mut self)`.
-/

namespace Maptile

/-- Map tile `(zoom, x, y)`  (src/tile.rs, `struct Tile`). -/
structure Tile where
  zoom : Nat
  x : Nat
  y : Nat
deriving DecidableEq, Repr

/-- `Tile::parent` (src/tile.rs): `None` at zoom 0, else
`{x >> 1, y >> 1, zoom - 1}`. -/
def Tile.parent (t : Tile) : Option Tile :=
  if t.zoom = 0 then
    none
  else
    some { x := t.x / 2, y := t.y / 2, zoom := t.zoom - 1 }

/-- The loop body of `Tile::ancestor` (src/tile.rs): starting from
`some self`, apply `parent` `relLevel` times, stopping (`break`) as soon as
the current value is `none`. -/
def ancestorLoop : Option Tile → Nat → Option Tile
  | o, 0 => o
  | none, _ + 1 => none
  | some t, n + 1 => ancestorLoop t.parent n

/-- `Tile::ancestor` (src/tile.rs). -/
def Tile.ancestor (t : Tile) (relLevel : Nat) : Option Tile :=
  ancestorLoop (some t) relLevel

/-- `Tile::sector_in_ancestor` (src/tile.rs):
`(x & ((1 << rel_level) - 1), y & ((1 << rel_level) - 1))`. -/
def Tile.sector_in_ancestor (t : Tile) (relLevel : Nat) : Nat × Nat :=
  (t.x % 2 ^ relLevel, t.y % 2 ^ relLevel)

/-- `Tile::children` (src/tile.rs): the four tiles at `zoom + 1` with
coordinates doubled, in the fixed order `(x,y), (x+1,y), (x,y+1), (x+1,y+1)`. -/
def Tile.children (t : Tile) : List Tile :=
  [ { zoom := t.zoom + 1, x := 2 * t.x, y := 2 * t.y },
    { zoom := t.zoom + 1, x := 2 * t.x + 1, y := 2 * t.y },
    { zoom := t.zoom + 1, x := 2 * t.x, y := 2 * t.y + 1 },
    { zoom := t.zoom + 1, x := 2 * t.x + 1, y := 2 * t.y + 1 } ]

/-- The `wrap` closure of `Tile::children_buffered` (src/tile.rs), with
`max = 2 << zoom` passed in:
`v = (if buffer > v { max } else { 0 }) + v - buffer;
 v - if v >= max { max } else { 0 }`.
(The subtractions never underflow `u32`, so `Nat` subtraction is exact.) -/
def wrapCoord (max buffer v : Nat) : Nat :=
  let v' := (if buffer > v then max else 0) + v - buffer
  v' - (if v' ≥ max then max else 0)

/-- `Tile::children_buffered` (src/tile.rs), as the list of tiles the lazy
iterator emits: `iproduct!(range, range)` has the x-offset `dx` as the outer
loop and the y-offset `dy` as the inner loop.  Note the source sets
`zoom = self.zoom + 1` and then `max = 2 << zoom`. -/
def Tile.children_buffered (t : Tile) (buffer : Nat) : List Tile :=
  let zoom := t.zoom + 1
  let x := 2 * t.x
  let y := 2 * t.y
  let range := List.range ((buffer + 1) * 2)
  let max := 2 <<< zoom
  range.flatMap fun dx =>
    range.map fun dy =>
      { x := wrapCoord max buffer (x + dx),
        y := wrapCoord max buffer (y + dy),
        zoom := zoom }

/-- Modelled from the spec (claim C2), for comparison with the source
definition: the same block of child-zoom tiles, but with each coordinate
"wrapped toroidally modulo the child-zoom grid width `2^(zoom+1)`", i.e.
`(2*x + d - buffer) mod 2^(t.zoom + 1)` computed in `ℤ`. -/
def Tile.childrenBufferedSpec (t : Tile) (buffer : Nat) : List Tile :=
  let zoom := t.zoom + 1
  let grid : Int := 2 ^ zoom
  let range := List.range ((buffer + 1) * 2)
  range.flatMap fun dx =>
    range.map fun dy =>
      { x := (((2 * t.x + dx : Int) - buffer) % grid).toNat,
        y := (((2 * t.y + dy : Int) - buffer) % grid).toNat,
        zoom := zoom }

/-- Rust's inclusive range `a..=b` of `u32`, as the list it iterates. -/
def rangeIncl (a b : Nat) : List Nat :=
  List.range' a (b + 1 - a)

/-- `TileIterator<T>` (src/tile_iterator.rs) with the generic coordinate
sequence `T : Iterator<Item = u32> + Clone` modelled as `List Nat`
(a clone of a list is the list itself). -/
structure TileIterator where
  zoom : Nat
  x_range : List Nat
  x_range_fresh : List Nat
  y_range : List Nat
  y : Option Nat
deriving DecidableEq, Repr

/-- `TileIterator::new` (src/tile_iterator.rs): saves a fresh copy of the
x-sequence and pre-pulls the first y (`y: y_range.next()`). -/
def TileIterator.new (zoom : Nat) (x_range y_range : List Nat) : TileIterator :=
  { zoom := zoom,
    x_range := x_range,
    x_range_fresh := x_range,
    y_range := y_range.tail,
    y := y_range.head? }

/-- `TileIterator::next` (src/tile_iterator.rs).  Returns the emitted tile
(or `none`) together with the mutated state, mirroring `next(&mut self)`:
if the current y is exhausted return `None`; advance the x-sequence and emit;
if the x-sequence is exhausted, reset it to the fresh copy, advance the
y-sequence and recurse. -/
def TileIterator.next (it : TileIterator) : Option Tile × TileIterator :=
  match h : it.y with
  | none => (none, it)
  | some y =>
    match it.x_range with
    | x :: rest =>
      (some { zoom := it.zoom, x := x, y := y }, { it with x_range := rest })
    | [] =>
      TileIterator.next
        { it with
            x_range := it.x_range_fresh,
            y := it.y_range.head?,
            y_range := it.y_range.tail }
termination_by it.y_range.length + (if it.y.isSome then 1 else 0)
decreasing_by
  cases hy : it.y_range with
  | nil => simp [hy, h]
  | cons a l => simp [hy, h]

/-- Termination measure for draining a `TileIterator`: an upper bound on the
number of `next` calls that can still emit a tile. -/
def TileIterator.nu (it : TileIterator) : Nat :=
  it.x_range.length +
    (it.x_range_fresh.length + 1) *
      (it.y_range.length + (if it.y.isSome then 1 else 0))

/-- Fuelled drain of a `TileIterator`. -/
def collectFuel : Nat → TileIterator → List Tile
  | 0, _ => []
  | fuel + 1, it =>
    match it.next with
    | (some t, it') => t :: collectFuel fuel it'
    | (none, _) => []

/-- The list of all tiles a `TileIterator` emits (what `Iterator::collect`
returns in the source's tests); `nu` is fuel enough, as proved in
`collectFuel_congr`/`collect_unfold` below. -/
def TileIterator.collect (it : TileIterator) : List Tile :=
  collectFuel it.nu it

/-- `successors(Some(tile), Tile::parent)` (src/tile_iterator.rs,
`pyramid`): the tile followed by its ancestor chain up to zoom 0.  The chain
has exactly `t.zoom + 1` elements, so that much fuel computes it exactly. -/
def chainFuel : Nat → Option Tile → List Tile
  | 0, _ => []
  | _ + 1, none => []
  | fuel + 1, some t => t :: chainFuel fuel t.parent

/-- The ancestor chain of a tile (`successors(Some(tile), Tile::parent)`). -/
def Tile.chain (t : Tile) : List Tile :=
  chainFuel (t.zoom + 1) (some t)

/-- `Itertools::unique` (used by `pyramid`): keeps the first occurrence of
each element, tracking the set of elements already seen. -/
def uniqueAux : List Tile → List Tile → List Tile
  | _, [] => []
  | seen, t :: rest =>
    if t ∈ seen then uniqueAux seen rest else t :: uniqueAux (t :: seen) rest

/-- `TileIterator::pyramid` (src/tile_iterator.rs):
`self.flat_map(|tile| successors(Some(tile), Tile::parent)).unique()`. -/
def TileIterator.pyramid (it : TileIterator) : List Tile :=
  uniqueAux [] (it.collect.flatMap Tile.chain)

/-- An `f64` value: an exact rational, or one of the special values.
(`-0.0` is identified with `0.0`; IEEE equality treats them as equal.) -/
inductive F64 where
  | finite (q : ℚ)
  | inf
  | neginf
  | nan
deriving DecidableEq, Repr

/-- IEEE 754 equality on `f64` (Rust `==`): `nan` is not equal to anything,
including itself. -/
def F64.beq : F64 → F64 → Bool
  | .finite q, .finite r => q == r
  | .inf, .inf => true
  | .neginf, .neginf => true
  | _, _ => false

/-- 2D bounding box (src/bbox.rs, `struct BBox`). -/
structure BBox where
  min_x : F64
  min_y : F64
  max_x : F64
  max_y : F64
deriving DecidableEq, Repr

/-- `BBox::new` (src/bbox.rs). -/
def BBox.new (min_x min_y max_x max_y : F64) : BBox :=
  { min_x := min_x, min_y := min_y, max_x := max_x, max_y := max_y }

/-- The derived `PartialEq` on `BBox`: field-wise IEEE equality. -/
def BBox.beq (a b : BBox) : Bool :=
  a.min_x.beq b.min_x && a.min_y.beq b.min_y &&
    a.max_x.beq b.max_x && a.max_y.beq b.max_y

/-- `std::f64::consts::PI`: the exact rational value of the 64-bit floating
point constant nearest to π. -/
def PI64 : ℚ := 884279719003555 / 281474976710656

/-- `WEB_MERCATOR_EXTENT = PI * EARTH_RADIUS` (src/constants.rs), the
product taken exactly. -/
def WEB_MERCATOR_EXTENT : ℚ := PI64 * 6378137

/-- `f64 + constant` (exact on the rational part). -/
def F64.addQ : F64 → ℚ → F64
  | .finite q, r => .finite (q + r)
  | .inf, _ => .inf
  | .neginf, _ => .neginf
  | .nan, _ => .nan

/-- `constant - f64` (exact on the rational part). -/
def F64.rsubQ (r : ℚ) : F64 → F64
  | .finite q => .finite (r - q)
  | .inf => .neginf
  | .neginf => .inf
  | .nan => .nan

/-- `f64 / constant`, the divisor being a positive finite constant in every
use in the source (exact on the rational part). -/
def F64.divQ : F64 → ℚ → F64
  | .finite q, r => .finite (q / r)
  | .inf, _ => .inf
  | .neginf, _ => .neginf
  | .nan, _ => .nan

/-- `f64::floor()` followed by `as u32`: Rust's float-to-integer cast
saturates below at 0 and above at `u32::MAX`; `NaN` casts to 0. -/
def F64.floorU32 : F64 → Nat
  | .finite q => min (Int.toNat ⌊q⌋) (2 ^ 32 - 1)
  | .inf => 2 ^ 32 - 1
  | .neginf => 0
  | .nan => 0

/-- `f64::ceil()` followed by `as u32` (saturating, as in `floorU32`). -/
def F64.ceilU32 : F64 → Nat
  | .finite q => min (Int.toNat ⌈q⌉) (2 ^ 32 - 1)
  | .inf => 2 ^ 32 - 1
  | .neginf => 0
  | .nan => 0

/-- Wrapping `u32` subtraction of 1 (release-mode `- 1` on a `u32`). -/
def u32SubOne (n : Nat) : Nat :=
  (n + (2 ^ 32 - 1)) % 2 ^ 32

/-- The `i32` value of `1 << zoom` as it occurs in
`f64::from(1 << zoom)` (src/utils.rs): the unsuffixed literal `1` makes the
shift `i32` arithmetic, so the shift amount is masked modulo 32 and the
result wraps two's-complement — in particular `1 << 31` is `-2^31`.  For
`zoom ≤ 30` this equals `2 ^ zoom`. -/
def shiftedZoomI32 (zoom : Nat) : Int :=
  (2 ^ (zoom % 32) + 2 ^ 31) % 2 ^ 32 - 2 ^ 31

/-- `bbox_covered_tiles` (src/utils.rs): the tile range covering a bounding
box at a zoom level, as a `TileIterator`.
`tile_size_meters = (WEB_MERCATOR_EXTENT * 2) / f64::from(1 << zoom)`,
where `1 << zoom` is `i32` arithmetic (see `shiftedZoomI32`). -/
def bbox_covered_tiles (bbox : BBox) (zoom : Nat) : TileIterator :=
  let tile_size_meters : ℚ := WEB_MERCATOR_EXTENT * 2 / (shiftedZoomI32 zoom : ℚ)
  let min_tile_x :=
    ((bbox.min_x.addQ WEB_MERCATOR_EXTENT).divQ tile_size_meters).floorU32
  let max_tile_x :=
    u32SubOne ((bbox.max_x.addQ WEB_MERCATOR_EXTENT).divQ tile_size_meters).ceilU32
  let min_tile_y :=
    ((F64.rsubQ WEB_MERCATOR_EXTENT bbox.max_y).divQ tile_size_meters).floorU32
  let max_tile_y :=
    u32SubOne ((F64.rsubQ WEB_MERCATOR_EXTENT bbox.min_y).divQ tile_size_meters).ceilU32
  TileIterator.new zoom (rangeIncl min_tile_x max_tile_x)
    (rangeIncl min_tile_y max_tile_y)

/-- ASCII digit value of a character, `none` if it is not a decimal digit. -/
def digitVal (c : Char) : Option Nat :=
  if '0' ≤ c ∧ c ≤ '9' then some (c.toNat - 48) else none

/-- The decimal digit character for `d < 10`. -/
def digitChar : Nat → Char
  | 0 => '0'
  | 1 => '1'
  | 2 => '2'
  | 3 => '3'
  | 4 => '4'
  | 5 => '5'
  | 6 => '6'
  | 7 => '7'
  | 8 => '8'
  | _ => '9'

/-- Decimal digits of a natural number, most significant first (Rust's
`Display` for unsigned integers: no sign, no leading zeros, `"0"` for 0). -/
def natDigits (n : Nat) : List Char :=
  if n < 10 then [digitChar n]
  else natDigits (n / 10) ++ [digitChar (n % 10)]
decreasing_by exact Nat.div_lt_self (by omega) (by omega)

/-- Value of a list of decimal digit characters, most significant first. -/
def decValue (ds : List Char) : Nat :=
  ds.foldl (fun a c => 10 * a + (digitVal c).getD 0) 0

/-- Strip one optional leading `'+'` (unsigned-integer parsing). -/
def stripPlus (cs : List Char) : List Char :=
  match cs with
  | c :: rest => if c = '+' then rest else cs
  | [] => []

/-- Rust's `str::parse` for an unsigned integer type with exclusive upper
bound `bound`: an optional leading `'+'`, then one or more decimal digits,
whose value must fit the type; anything else is a parse error (`none`). -/
def parseUInt (bound : Nat) (cs : List Char) : Option Nat :=
  let ds := stripPlus cs
  if ds ≠ [] ∧ ds.all (fun c => (digitVal c).isSome) ∧ decValue ds < bound then
    some (decValue ds)
  else
    none

/-- `str::splitn(sep)`'s first step: the characters before the first
separator, and (when a separator occurs) the remainder after it. -/
def breakAtChar (sep : Char) : List Char → List Char × Option (List Char)
  | [] => ([], none)
  | c :: rest =>
    if c = sep then
      ([], some rest)
    else
      let (a, b) := breakAtChar sep rest
      (c :: a, b)

/-- Rust's `str::splitn(n, sep)` as a list: at most `n` parts, the last part
keeping any remaining separators. -/
def splitnChar : Nat → Char → List Char → List (List Char)
  | 0, _, _ => []
  | 1, _, cs => [cs]
  | n + 2, sep, cs =>
    match breakAtChar sep cs with
    | (a, none) => [a]
    | (a, some rest) => a :: splitnChar (n + 1) sep rest

/-- Rust's `str::split(sep)` as a list (no part limit). -/
def splitChar (sep : Char) : List Char → List (List Char)
  | [] => [[]]
  | c :: rest =>
    match splitChar sep rest with
    | [] => [[]]
    | h :: t => if c = sep then [] :: h :: t else (c :: h) :: t

/-- `ParseError` (src/tile.rs): the single undifferentiated tile parse
error ("invalid tile format"). -/
inductive ParseError where
  | parseError
deriving DecidableEq, Repr

/-- `FromStr for Tile` (src/tile.rs): `splitn(3, '/')`, exactly 3 parts,
each parsed as the respective unsigned integer (`u8`, `u32`, `u32`); every
failure maps to the single `ParseError`. -/
def Tile.fromStr (cs : List Char) : Except ParseError Tile :=
  match splitnChar 3 '/' cs with
  | [a, b, c] =>
    match parseUInt (2 ^ 8) a, parseUInt (2 ^ 32) b, parseUInt (2 ^ 32) c with
    | some zoom, some x, some y => .ok { zoom := zoom, x := x, y := y }
    | _, _, _ => .error .parseError
  | _ => .error .parseError

/-- `Display for Tile` (src/tile.rs): `"{zoom}/{x}/{y}"`. -/
def Tile.display (t : Tile) : List Char :=
  natDigits t.zoom ++ ['/'] ++ natDigits t.x ++ ['/'] ++ natDigits t.y

/-- `std::num::ParseFloatError` ("invalid float literal"). -/
inductive FloatParseError where
  | invalidFloat
deriving DecidableEq, Repr

/-- Lower-case an ASCII letter (for the case-insensitive `inf`/`nan`
literals of `f64` parsing). -/
def toLowerChar (c : Char) : Char :=
  if 'A' ≤ c ∧ c ≤ 'Z' then Char.ofNat (c.toNat + 32) else c

/-- Case-insensitive comparison with a (lower-case) keyword. -/
def matchesKw (cs : List Char) (kw : List Char) : Bool :=
  cs.map toLowerChar == kw

/-- Split off the leading run of decimal digits. -/
def takeDigits (cs : List Char) : List Char × List Char :=
  (cs.takeWhile fun c => (digitVal c).isSome,
   cs.dropWhile fun c => (digitVal c).isSome)

/-- Strip one optional leading sign, reporting whether it was `'-'`. -/
def splitSign (cs : List Char) : Bool × List Char :=
  match cs with
  | c :: rest =>
    if c = '-' then (true, rest)
    else if c = '+' then (false, rest)
    else (false, cs)
  | [] => (false, [])

/-- The exponent part of an `f64` literal, after the `e`/`E`: an optional
sign then one or more digits, consuming the whole remainder. -/
def parseExp (cs : List Char) : Option Int :=
  let sr := splitSign cs
  let dr := takeDigits sr.2
  if dr.1 = [] ∨ dr.2 ≠ [] then none
  else some (if sr.1 then -(decValue dr.1 : Int) else (decValue dr.1 : Int))

/-- The mantissa of an `f64` literal: `digits`, `digits '.' digits?` or
`'.' digits`, returning its exact value and the unconsumed remainder. -/
def parseMantissa (cs : List Char) : Option (ℚ × List Char) :=
  let td := takeDigits cs
  match td.2 with
  | '.' :: rest2 =>
    let fd := takeDigits rest2
    if td.1 = [] ∧ fd.1 = [] then none
    else some ((decValue td.1 : ℚ) + (decValue fd.1 : ℚ) / 10 ^ fd.1.length, fd.2)
  | _ =>
    if td.1 = [] then none else some ((decValue td.1 : ℚ), td.2)

/-- `f64::from_str`: optional sign, then a case-insensitive
`inf`/`infinity`/`nan` literal or a decimal mantissa with optional
`e`/`E` exponent.  The decimal value is taken exactly (IEEE rounding to the
nearest double is idealised away). -/
def parseF64 (cs : List Char) : Except FloatParseError F64 :=
  let sr := splitSign cs
  let neg := sr.1
  let rest := sr.2
  if matchesKw rest ['i', 'n', 'f'] ∨
      matchesKw rest ['i', 'n', 'f', 'i', 'n', 'i', 't', 'y'] then
    .ok (if neg then .neginf else .inf)
  else if matchesKw rest ['n', 'a', 'n'] then
    .ok .nan
  else
    match parseMantissa rest with
    | none => .error .invalidFloat
    | some mr =>
      match mr.2 with
      | [] => .ok (.finite (if neg then -mr.1 else mr.1))
      | 'e' :: rest3 =>
        match parseExp rest3 with
        | some e => .ok (.finite ((if neg then -mr.1 else mr.1) * 10 ^ e))
        | none => .error .invalidFloat
      | 'E' :: rest3 =>
        match parseExp rest3 with
        | some e => .ok (.finite ((if neg then -mr.1 else mr.1) * 10 ^ e))
        | none => .error .invalidFloat
      | _ => .error .invalidFloat

/-- Whitespace for `str::trim` (the ASCII cases). -/
def isWhitespaceChar (c : Char) : Bool :=
  c = ' ' ∨ c = '\t' ∨ c = '\n' ∨ c = '\r'

/-- `str::trim`: strip leading and trailing whitespace. -/
def trimChars (cs : List Char) : List Char :=
  ((cs.dropWhile isWhitespaceChar).reverse.dropWhile isWhitespaceChar).reverse

/-- `BBoxParseError` (src/bbox.rs): a wrapped float parse error, or the
wrong-field-count error. -/
inductive BBoxParseError where
  | parseFloatError (e : FloatParseError)
  | numberOfElementsError
deriving DecidableEq, Repr

/-- `FromStr for BBox` (src/bbox.rs): split on `','`, trim each part,
require exactly 4 parts, parse each as `f64`; `?` propagates the first
failing field's error wrapped in `parseFloatError`. -/
def BBox.fromStr (cs : List Char) : Except BBoxParseError BBox :=
  match (splitChar ',' cs).map trimChars with
  | [a, b, c, d] =>
    match parseF64 a with
    | .error e => .error (.parseFloatError e)
    | .ok mx =>
      match parseF64 b with
      | .error e => .error (.parseFloatError e)
      | .ok my =>
        match parseF64 c with
        | .error e => .error (.parseFloatError e)
        | .ok Mx =>
          match parseF64 d with
          | .error e => .error (.parseFloatError e)
          | .ok My => .ok (BBox.new mx my Mx My)
  | _ => .error .numberOfElementsError

/-- The exact decimal digit string (with decimal point) of `N / 10^k`,
zero-padded on the left so an integer part always exists. -/
def posDigitsWithPoint (N k : Nat) : List Char :=
  let ds := natDigits N
  let ds := List.replicate (k + 1 - ds.length) '0' ++ ds
  if k = 0 then ds
  else ds.take (ds.length - k) ++ '.' :: ds.drop (ds.length - k)

/-- Decimal text of a finite `f64` value `q` (which is a dyadic rational
`num / 2^k`): writing `N = |num| * 5^k`, the value is `N / 10^k`, printed
exactly.  Rust prints the shortest decimal that re-parses to the same
double; the exact expansion is also such a round-tripping decimal form. -/
def ratDisplay (q : ℚ) : List Char :=
  let k := Nat.log2 q.den
  let N := q.num.natAbs * 5 ^ k
  if q.num < 0 then '-' :: posDigitsWithPoint N k else posDigitsWithPoint N k

/-- `Display` for `f64`: `"NaN"`, `"inf"`, `"-inf"`, or the decimal text. -/
def F64.display : F64 → List Char
  | .finite q => ratDisplay q
  | .inf => ['i', 'n', 'f']
  | .neginf => ['-', 'i', 'n', 'f']
  | .nan => ['N', 'a', 'N']

/-- `Display for BBox` (src/bbox.rs): `"{min_x},{min_y},{max_x},{max_y}"`. -/
def BBox.display (b : BBox) : List Char :=
  b.min_x.display ++ [','] ++ b.min_y.display ++ [','] ++
    b.max_x.display ++ [','] ++ b.max_y.display

/-- A rational is dyadic (its denominator is a power of two) exactly when it
is the value of some finite `f64` (ignoring range limits). -/
def dyadic (q : ℚ) : Prop :=
  q.den = 2 ^ Nat.log2 q.den

instance (q : ℚ) : Decidable (dyadic q) := by
  unfold dyadic; infer_instance

/-- An `f64` model value that a real `f64` can hold, NaN excluded. -/
def F64.representable : F64 → Prop
  | .finite q => dyadic q
  | .inf => True
  | .neginf => True
  | .nan => False

instance (v : F64) : Decidable v.representable := by
  cases v <;> simp [F64.representable] <;> infer_instance

/-- Spec-side first-occurrence deduplication (claim C4): fold over the list,
appending each element only the first time it appears. -/
def dedupFirst (l : List Tile) : List Tile :=
  l.foldl (fun acc t => if t ∈ acc then acc else acc ++ [t]) []

/-- Spec-side ancestor chain (claim C4): the `k`-fold parents of the tile
for `k = 0 .. zoom`, "obtained by repeated parent() up to zoom 0". -/
def chainSpec (t : Tile) : List Tile :=
  (List.range (t.zoom + 1)).map fun k =>
    { zoom := t.zoom - k, x := t.x / 2 ^ k, y := t.y / 2 ^ k }

/-! ### Tile hierarchy: claims C6, C7, C8, C2 -/

theorem ancestorLoop_none (k : Nat) : ancestorLoop none k = none := by
  cases k <;> rfl

theorem ancestorLoop_le (k : Nat) :
    ∀ t : Tile, k ≤ t.zoom →
      ancestorLoop (some t) k =
        some { zoom := t.zoom - k, x := t.x / 2 ^ k, y := t.y / 2 ^ k } := by
  induction k with
  | zero => intro t _; simp [ancestorLoop]
  | succ n ih =>
    intro t hk
    have hz : ¬ t.zoom = 0 := by omega
    show ancestorLoop t.parent n = _
    rw [Tile.parent, if_neg hz,
      ih { zoom := t.zoom - 1, x := t.x / 2, y := t.y / 2 } (by simp; omega)]
    simp only [Option.some.injEq, Tile.mk.injEq]
    refine ⟨by omega, ?_, ?_⟩ <;>
      rw [Nat.div_div_eq_div_mul, pow_succ, Nat.mul_comm]

theorem ancestorLoop_gt (k : Nat) :
    ∀ t : Tile, t.zoom < k → ancestorLoop (some t) k = none := by
  induction k with
  | zero => intro t h; omega
  | succ n ih =>
    intro t hk
    show ancestorLoop t.parent n = none
    by_cases hz : t.zoom = 0
    · rw [Tile.parent, if_pos hz]; exact ancestorLoop_none n
    · rw [Tile.parent, if_neg hz]
      exact ih _ (by simp; omega)

/-- C6: `t.ancestor(k)` is `some` of the k-fold parent
`{zoom - k, x >> k, y >> k}` exactly when `k ≤ t.zoom`, is `none` exactly
when `k > t.zoom`, and `t.ancestor(0) = some t`. -/
theorem c6_ancestor (t : Tile) (k : Nat) :
    (k ≤ t.zoom →
      t.ancestor k = some { zoom := t.zoom - k, x := t.x / 2 ^ k, y := t.y / 2 ^ k }) ∧
    (t.zoom < k → t.ancestor k = none) ∧
    t.ancestor 0 = some t := by
  refine ⟨fun h => ancestorLoop_le k t h, fun h => ancestorLoop_gt k t h, rfl⟩

/-- Witness for C6 at `t = 3/5/6`, `k = 2` and `k = 4`. -/
theorem c6_ancestor_witness :
    Tile.ancestor ⟨3, 5, 6⟩ 2 = some ⟨1, 1, 1⟩ ∧
    Tile.ancestor ⟨3, 5, 6⟩ 4 = none :=
  ⟨(c6_ancestor ⟨3, 5, 6⟩ 2).1 (by decide), (c6_ancestor ⟨3, 5, 6⟩ 4).2.1 (by decide)⟩

/-- C7: each of the four children of any tile has that tile as its parent
(`t.children()[i].parent() == Some(t)` for `i ∈ 0..4`). -/
theorem c7_children_parent (t : Tile) :
    t.children.map Tile.parent = List.replicate 4 (some t) := by
  obtain ⟨z, x, y⟩ := t
  simp [Tile.children, Tile.parent, List.replicate, Tile.mk.injEq]
  omega

/-- C8: for a tile of zoom ≥ 1, `t.parent().children()` contains `t`
exactly once, at index `sx + 2*sy` where `(sx, sy) = t.sector_in_ancestor(1)`. -/
theorem c8_parent_children (t : Tile) (h : 1 ≤ t.zoom) :
    ∃ p, t.parent = some p ∧
      p.children.count t = 1 ∧
      p.children[(t.sector_in_ancestor 1).1 + 2 * (t.sector_in_ancestor 1).2]? =
        some t := by
  obtain ⟨z, x, y⟩ := t
  have hz : 1 ≤ z := h
  obtain ⟨n, rfl⟩ : ∃ n, z = n + 1 := ⟨z - 1, by omega⟩
  refine ⟨{ zoom := n, x := x / 2, y := y / 2 }, ?_, ?_, ?_⟩
  · simp [Tile.parent]
  · rcases Nat.mod_two_eq_zero_or_one x with hx | hx <;>
      rcases Nat.mod_two_eq_zero_or_one y with hy | hy <;>
      simp [Tile.children, List.count_cons, Tile.mk.injEq] <;>
      split_ifs <;> omega
  · rcases Nat.mod_two_eq_zero_or_one x with hx | hx <;>
      rcases Nat.mod_two_eq_zero_or_one y with hy | hy <;>
      simp [Tile.children, Tile.sector_in_ancestor, hx, hy, pow_one,
        Tile.mk.injEq] <;>
      omega

/-- Witness for C8 at `t = 3/5/6` (sector `(1, 0)`, index 1). -/
theorem c8_parent_children_witness :
    ∃ p, Tile.parent ⟨3, 5, 6⟩ = some p ∧
      p.children.count ⟨3, 5, 6⟩ = 1 ∧
      p.children[(Tile.sector_in_ancestor ⟨3, 5, 6⟩ 1).1 +
        2 * (Tile.sector_in_ancestor ⟨3, 5, 6⟩ 1).2]? = some ⟨3, 5, 6⟩ :=
  c8_parent_children ⟨3, 5, 6⟩ (by decide)

/-- C2 (code bug): `children_buffered` wraps modulo `2 << (zoom + 1)`, i.e.
`2^(zoom+2)`, not modulo the child grid width `2^(zoom+1)`.  At
`t = 0/0/0`, `buffer = 1` the first emitted tile is `1/3/3` — outside the
zoom-1 grid `{0, 1}²` — where the claimed toroidal wrap yields `1/1/1`. -/
theorem c2_children_buffered_wrap :
    (Tile.children_buffered ⟨0, 0, 0⟩ 1).head? = some ⟨1, 3, 3⟩ ∧
    (Tile.childrenBufferedSpec ⟨0, 0, 0⟩ 1).head? = some ⟨1, 1, 1⟩ ∧
    Tile.children_buffered ⟨0, 0, 0⟩ 1 ≠ Tile.childrenBufferedSpec ⟨0, 0, 0⟩ 1 ∧
    (¬ ∀ u ∈ Tile.children_buffered ⟨0, 0, 0⟩ 1, u.x < 2 ^ 1 ∧ u.y < 2 ^ 1) ∧
    (Tile.children_buffered ⟨0, 0, 0⟩ 1).length = (2 * (1 + 1)) ^ 2 := by
  decide

/-! ### TileIterator: claims C3, C10, C4 -/

theorem next_y_none (it : TileIterator) (h : it.y = none) : it.next = (none, it) := by
  rw [TileIterator.next.eq_def, h]

theorem next_emit (it : TileIterator) (y x : Nat) (rest : List Nat)
    (hy : it.y = some y) (hx : it.x_range = x :: rest) :
    it.next = (some { zoom := it.zoom, x := x, y := y }, { it with x_range := rest }) := by
  rw [TileIterator.next.eq_def, hy, hx]

theorem next_reset (it : TileIterator) (y : Nat)
    (hy : it.y = some y) (hx : it.x_range = []) :
    it.next = TileIterator.next
      { it with
          x_range := it.x_range_fresh,
          y := it.y_range.head?,
          y_range := it.y_range.tail } := by
  conv_lhs => rw [TileIterator.next.eq_def]
  rw [hy, hx]

theorem nu_reset_lt (it : TileIterator) (y : Nat)
    (hy : it.y = some y) (hx : it.x_range = []) :
    TileIterator.nu
        { it with
            x_range := it.x_range_fresh,
            y := it.y_range.head?,
            y_range := it.y_range.tail } < it.nu := by
  simp only [TileIterator.nu, hx, hy, Option.isSome_some, List.length_nil, if_true]
  cases hyr : it.y_range with
  | nil => simp
  | cons a l =>
    simp only [List.tail_cons, List.head?_cons, Option.isSome_some, List.length_cons,
      if_true]
    nlinarith [Nat.mul_succ (it.x_range_fresh.length + 1) (l.length + 1)]

theorem next_of_nu_zero (it : TileIterator) (h : it.nu = 0) : it.next = (none, it) := by
  cases hy : it.y with
  | none => exact next_y_none it hy
  | some y =>
    exfalso
    simp [TileIterator.nu, hy, Nat.add_eq_zero] at h

theorem measure_reset_le (it : TileIterator) (y : Nat) (hy : it.y = some y) (m : Nat)
    (hm : it.y_range.length + (if it.y.isSome then 1 else 0) ≤ m + 1) :
    it.y_range.tail.length + (if it.y_range.head?.isSome then 1 else 0) ≤ m := by
  rw [hy] at hm
  cases hyr : it.y_range with
  | nil => simp
  | cons a l =>
    rw [hyr] at hm
    simp only [List.length_cons, Option.isSome_some, if_true, List.tail_cons,
      List.head?_cons] at hm ⊢
    omega

theorem next_spec : ∀ (m : Nat) (it : TileIterator),
    it.y_range.length + (if it.y.isSome then 1 else 0) ≤ m →
    ∀ t it', it.next = (some t, it') →
      it'.x_range_fresh = it.x_range_fresh ∧ it'.nu < it.nu := by
  intro m
  induction m with
  | zero =>
    intro it hm t it' hn
    cases hy : it.y with
    | some y => simp [hy] at hm
    | none => rw [next_y_none it hy] at hn; cases hn
  | succ m ih =>
    intro it hm t it' hn
    cases hy : it.y with
    | none => rw [next_y_none it hy] at hn; cases hn
    | some y =>
      cases hx : it.x_range with
      | cons x rest =>
        rw [next_emit it y x rest hy hx] at hn
        injection hn with h1 h2
        subst h2
        refine ⟨rfl, ?_⟩
        simp only [TileIterator.nu, hx, List.length_cons]
        omega
      | nil =>
        rw [next_reset it y hy hx] at hn
        obtain ⟨hf, hlt⟩ := ih _ (measure_reset_le it y hy m hm) t it' hn
        exact ⟨hf, lt_trans hlt (nu_reset_lt it y hy hx)⟩

theorem next_some_nu (it : TileIterator) (t : Tile) (it' : TileIterator)
    (hn : it.next = (some t, it')) :
    it'.x_range_fresh = it.x_range_fresh ∧ it'.nu < it.nu :=
  next_spec _ it le_rfl t it' hn

theorem collectFuel_congr : ∀ f1 f2 it, it.nu ≤ f1 → it.nu ≤ f2 →
    collectFuel f1 it = collectFuel f2 it := by
  intro f1
  induction f1 with
  | zero =>
    intro f2 it h1 _
    have h0 : it.nu = 0 := by omega
    cases f2 with
    | zero => rfl
    | succ m => simp [collectFuel, next_of_nu_zero it h0]
  | succ n ih =>
    intro f2 it h1 h2
    cases f2 with
    | zero =>
      have h0 : it.nu = 0 := by omega
      simp [collectFuel, next_of_nu_zero it h0]
    | succ m =>
      simp only [collectFuel]
      cases hn : it.next with
      | mk o it' =>
        cases o with
        | none => rfl
        | some t =>
          have hlt := (next_some_nu it t it' hn).2
          show t :: collectFuel n it' = t :: collectFuel m it'
          rw [ih m it' (by omega) (by omega)]

theorem collect_unfold (it : TileIterator) :
    it.collect =
      match it.next with
      | (some t, it') => t :: it'.collect
      | (none, _) => [] := by
  unfold TileIterator.collect
  cases hn : it.next with
  | mk o it' =>
    cases o with
    | some t =>
      cases hnu : it.nu with
      | zero => rw [next_of_nu_zero it hnu] at hn; cases hn
      | succ n =>
        have hlt := (next_some_nu it t it' hn).2
        show (match it.next with
          | (some t, it') => t :: collectFuel n it'
          | (none, _) => []) = _
        rw [hn]
        show t :: collectFuel n it' = t :: collectFuel it'.nu it'
        rw [collectFuel_congr n it'.nu it' (by omega) le_rfl]
    | none =>
      cases hnu : it.nu with
      | zero => rfl
      | succ n =>
        show (match it.next with
          | (some t, it') => t :: collectFuel n it'
          | (none, _) => []) = _
        rw [hn]

theorem collect_congr_next (it1 it2 : TileIterator) (h : it1.next = it2.next) :
    it1.collect = it2.collect := by
  rw [collect_unfold it1, collect_unfold it2, h]

theorem collect_row (z : Nat) (xf yr : List Nat) (y : Nat) :
    ∀ xr, TileIterator.collect ⟨z, xr, xf, yr, some y⟩ =
      xr.map (fun x => { zoom := z, x := x, y := y }) ++
        TileIterator.collect ⟨z, xf, xf, yr.tail, yr.head?⟩ := by
  intro xr
  induction xr with
  | nil =>
    have h : TileIterator.next ⟨z, [], xf, yr, some y⟩ =
        TileIterator.next ⟨z, xf, xf, yr.tail, yr.head?⟩ :=
      next_reset _ y rfl rfl
    simpa using collect_congr_next _ _ h
  | cons x rest ih =>
    rw [collect_unfold, next_emit _ y x rest rfl rfl]
    show Tile.mk z x y :: TileIterator.collect ⟨z, rest, xf, yr, some y⟩ = _
    rw [ih]
    simp

theorem collect_new (z : Nat) (X : List Nat) :
    ∀ Y : List Nat, (TileIterator.new z X Y).collect =
      Y.flatMap fun y => X.map fun x => { zoom := z, x := x, y := y } := by
  intro Y
  induction Y with
  | nil =>
    rw [show TileIterator.new z X [] = ⟨z, X, X, [], none⟩ from rfl,
      collect_unfold, next_y_none _ rfl]
    rfl
  | cons y ys ih =>
    rw [show TileIterator.new z X (y :: ys) = ⟨z, X, X, ys, some y⟩ from rfl,
      collect_row z X ys y X,
      show (⟨z, X, X, ys.tail, ys.head?⟩ : TileIterator) = TileIterator.new z X ys from rfl,
      ih]
    simp

theorem next_none_terminal : ∀ (m : Nat) (it : TileIterator),
    it.y_range.length + (if it.y.isSome then 1 else 0) ≤ m →
    ∀ it', it.next = (none, it') → it'.y = none ∧ it'.next = (none, it') := by
  intro m
  induction m with
  | zero =>
    intro it hm it' hn
    cases hy : it.y with
    | some y => simp [hy] at hm
    | none =>
      rw [next_y_none it hy] at hn
      injection hn with _ h2
      subst h2
      exact ⟨hy, next_y_none it hy⟩
  | succ m ih =>
    intro it hm it' hn
    cases hy : it.y with
    | none =>
      rw [next_y_none it hy] at hn
      injection hn with _ h2
      subst h2
      exact ⟨hy, next_y_none it hy⟩
    | some y =>
      cases hx : it.x_range with
      | cons x rest => rw [next_emit it y x rest hy hx] at hn; cases hn
      | nil =>
        rw [next_reset it y hy hx] at hn
        exact ih _ (measure_reset_le it y hy m hm) it' hn

/-- C3: `TileIterator::new(z, X, Y)` enumerates the tiles in row-major
order (for each y of Y, all x of a fresh copy of X); an iterator whose
current y is exhausted is terminal and every pull returns `none` leaving the
state unchanged; a pull that returns `none` leaves the iterator in that
permanent terminal state; and the 3/1..2/2..4 example collects to exactly
the six listed tiles. -/
theorem c3_tile_iterator :
    (∀ (z : Nat) (X Y : List Nat),
      (TileIterator.new z X Y).collect =
        Y.flatMap fun y => X.map fun x => { zoom := z, x := x, y := y }) ∧
    (∀ it : TileIterator, it.y = none → it.next = (none, it)) ∧
    (∀ it it' : TileIterator, it.next = (none, it') →
      it'.y = none ∧ it'.next = (none, it')) ∧
    (TileIterator.new 3 (rangeIncl 1 2) (rangeIncl 2 4)).collect =
      [⟨3, 1, 2⟩, ⟨3, 2, 2⟩, ⟨3, 1, 3⟩, ⟨3, 2, 3⟩, ⟨3, 1, 4⟩, ⟨3, 2, 4⟩] := by
  refine ⟨fun z X Y => collect_new z X Y, fun it h => next_y_none it h,
    fun it it' h => next_none_terminal _ it le_rfl it' h, ?_⟩
  rw [collect_new]
  decide

/-- Witness for C3's hypothesis-bearing conjuncts at a concrete terminal
iterator state. -/
theorem c3_tile_iterator_witness :
    TileIterator.next ⟨5, [1, 2], [1, 2], [7], none⟩ =
      (none, ⟨5, [1, 2], [1, 2], [7], none⟩) ∧
    (⟨5, [1, 2], [1, 2], [7], none⟩ : TileIterator).y = none :=
  ⟨c3_tile_iterator.2.1 _ rfl,
   (c3_tile_iterator.2.2.1 _ _ (c3_tile_iterator.2.1 _ rfl)).1⟩

theorem next_empty_drain (z : Nat) :
    ∀ (yr : List Nat) (y : Nat),
      TileIterator.next ⟨z, [], [], yr, some y⟩ = (none, ⟨z, [], [], [], none⟩) := by
  intro yr
  induction yr with
  | nil =>
    intro y
    rw [next_reset _ y rfl rfl]
    exact next_y_none _ rfl
  | cons a l ih =>
    intro y
    rw [next_reset _ y rfl rfl]
    exact ih a

/-- C10: with an empty x-sequence, `next` is total and yields nothing: the
very first pull internally consumes the whole remaining y-sequence (one
element per reset step, well-founded on its length), returns `none`, and
leaves the iterator in the terminal state; the enumeration is empty. -/
theorem c10_empty_x_range (z : Nat) (Y : List Nat) :
    (TileIterator.new z [] Y).next = (none, ⟨z, [], [], [], none⟩) ∧
    (TileIterator.new z [] Y).collect = [] := by
  constructor
  · cases Y with
    | nil => exact next_y_none _ rfl
    | cons y ys => exact next_empty_drain z ys y
  · rw [collect_new]
    simp

theorem chain_eq_chainSpec : ∀ (z x y : Nat),
    Tile.chain ⟨z, x, y⟩ = chainSpec ⟨z, x, y⟩ := by
  intro z
  induction z with
  | zero =>
    intro x y
    show chainFuel 1 (some ⟨0, x, y⟩) = _
    simp [chainFuel, Tile.parent, chainSpec, show List.range 1 = [0] from rfl]
  | succ n ih =>
    intro x y
    have hp : Tile.parent ⟨n + 1, x, y⟩ = some ⟨n, x / 2, y / 2⟩ := by
      simp [Tile.parent]
    rw [show Tile.chain ⟨n + 1, x, y⟩ =
        Tile.mk (n + 1) x y :: chainFuel (n + 1) (Tile.parent ⟨n + 1, x, y⟩) from rfl,
      hp,
      show chainFuel (n + 1) (some ⟨n, x / 2, y / 2⟩) =
        Tile.chain ⟨n, x / 2, y / 2⟩ from rfl,
      ih]
    simp only [chainSpec]
    conv_rhs => rw [List.range_succ_eq_map]
    simp only [List.map_cons, List.map_map, pow_zero, Nat.div_one, Nat.sub_zero]
    refine congrArg₂ List.cons rfl ?_
    refine List.map_congr_left fun k _ => ?_
    simp only [Function.comp_apply, Nat.succ_eq_add_one, Tile.mk.injEq]
    refine ⟨by omega, ?_, ?_⟩ <;>
      rw [Nat.div_div_eq_div_mul, pow_succ, Nat.mul_comm]

theorem mem_uniqueAux : ∀ (l seen : List Tile) (t : Tile),
    t ∈ uniqueAux seen l ↔ t ∈ l ∧ t ∉ seen := by
  intro l
  induction l with
  | nil => intro seen t; simp [uniqueAux]
  | cons u rest ih =>
    intro seen t
    by_cases hu : u ∈ seen
    · rw [show uniqueAux seen (u :: rest) = uniqueAux seen rest from by
        simp [uniqueAux, hu]]
      rw [ih]
      constructor
      · rintro ⟨h1, h2⟩; exact ⟨List.mem_cons_of_mem u h1, h2⟩
      · rintro ⟨h1, h2⟩
        rcases List.mem_cons.mp h1 with rfl | h1
        · exact absurd hu h2
        · exact ⟨h1, h2⟩
    · rw [show uniqueAux seen (u :: rest) = u :: uniqueAux (u :: seen) rest from by
        simp [uniqueAux, hu]]
      constructor
      · intro h1
        rcases List.mem_cons.mp h1 with rfl | h1
        · exact ⟨List.mem_cons_self t rest, hu⟩
        · obtain ⟨h2, h3⟩ := (ih (u :: seen) t).mp h1
          exact ⟨List.mem_cons_of_mem u h2,
            fun hc => h3 (List.mem_cons_of_mem u hc)⟩
      · rintro ⟨h1, h2⟩
        rcases List.mem_cons.mp h1 with rfl | h1
        · exact List.mem_cons_self t _
        · by_cases htu : t = u
          · subst htu; exact List.mem_cons_self t _
          · refine List.mem_cons_of_mem u ((ih (u :: seen) t).mpr ⟨h1, ?_⟩)
            intro hc
            rcases List.mem_cons.mp hc with h | h
            · exact htu h
            · exact h2 h

theorem uniqueAux_nodup : ∀ (l seen : List Tile), (uniqueAux seen l).Nodup := by
  intro l
  induction l with
  | nil => intro seen; simp [uniqueAux]
  | cons u rest ih =>
    intro seen
    by_cases hu : u ∈ seen
    · rw [show uniqueAux seen (u :: rest) = uniqueAux seen rest from by
        simp [uniqueAux, hu]]
      exact ih seen
    · rw [show uniqueAux seen (u :: rest) = u :: uniqueAux (u :: seen) rest from by
        simp [uniqueAux, hu]]
      refine List.nodup_cons.mpr ⟨?_, ih (u :: seen)⟩
      intro hc
      exact ((mem_uniqueAux rest (u :: seen) u).mp hc).2 (List.mem_cons_self u seen)

theorem uniqueAux_foldl : ∀ (l seen acc : List Tile),
    (∀ t, t ∈ seen ↔ t ∈ acc) →
    acc ++ uniqueAux seen l =
      l.foldl (fun acc t => if t ∈ acc then acc else acc ++ [t]) acc := by
  intro l
  induction l with
  | nil => intro seen acc _; simp [uniqueAux]
  | cons t rest ih =>
    intro seen acc h
    by_cases ht : t ∈ seen
    · rw [show uniqueAux seen (t :: rest) = uniqueAux seen rest from by
        simp [uniqueAux, ht]]
      rw [List.foldl_cons, if_pos ((h t).mp ht)]
      exact ih seen acc h
    · rw [show uniqueAux seen (t :: rest) = t :: uniqueAux (t :: seen) rest from by
        simp [uniqueAux, ht]]
      rw [List.foldl_cons, if_neg (fun hc => ht ((h t).mpr hc))]
      have h2 : ∀ u, u ∈ t :: seen ↔ u ∈ acc ++ [t] := by
        intro u
        simp only [List.mem_cons, List.mem_append, List.mem_singleton, h u]
        tauto
      calc acc ++ t :: uniqueAux (t :: seen) rest
          = (acc ++ [t]) ++ uniqueAux (t :: seen) rest := by simp
        _ = _ := ih (t :: seen) (acc ++ [t]) h2

/-- C4: `pyramid()` emits, for each base tile in base order, the tile and
its full ancestor chain (the k-fold parents up to zoom 0), flattened, with
global first-occurrence deduplication; the result is duplicate-free,
contains exactly the tiles of the flattened chains, and is a finite list
whenever the base enumeration is (here: always, lists being finite).  The
repository's 2/1..2/1..3 example evaluates to the expected 11 tiles. -/
theorem c4_pyramid (it : TileIterator) :
    it.pyramid = dedupFirst (it.collect.flatMap chainSpec) ∧
    it.pyramid.Nodup ∧
    (∀ t : Tile, t ∈ it.pyramid ↔ t ∈ it.collect.flatMap Tile.chain) ∧
    (TileIterator.new 2 (rangeIncl 1 2) (rangeIncl 1 3)).pyramid =
      [⟨2, 1, 1⟩, ⟨1, 0, 0⟩, ⟨0, 0, 0⟩, ⟨2, 2, 1⟩, ⟨1, 1, 0⟩, ⟨2, 1, 2⟩,
       ⟨1, 0, 1⟩, ⟨2, 2, 2⟩, ⟨1, 1, 1⟩, ⟨2, 1, 3⟩, ⟨2, 2, 3⟩] := by
  have hchain : ∀ t : Tile, Tile.chain t = chainSpec t := by
    intro t; obtain ⟨z, x, y⟩ := t; exact chain_eq_chainSpec z x y
  refine ⟨?_, uniqueAux_nodup _ [], ?_, ?_⟩
  · show uniqueAux [] (it.collect.flatMap Tile.chain) = _
    have he : it.collect.flatMap Tile.chain = it.collect.flatMap chainSpec := by
      rw [show Tile.chain = chainSpec from funext hchain]
    rw [he, dedupFirst]
    simpa using uniqueAux_foldl (it.collect.flatMap chainSpec) [] [] (by simp)
  · intro t
    show t ∈ uniqueAux [] _ ↔ _
    rw [mem_uniqueAux]
    simp
  · show uniqueAux []
      ((TileIterator.new 2 (rangeIncl 1 2) (rangeIncl 1 3)).collect.flatMap Tile.chain) = _
    rw [collect_new]
    decide

/-! ### bbox_covered_tiles: claim C1 -/

theorem extent_pos : 0 < WEB_MERCATOR_EXTENT := by
  norm_num [WEB_MERCATOR_EXTENT, PI64]

/-- Below the zoom-31 wrap, the `i32` shift `1 << zoom` is exactly
`2 ^ zoom`. -/
theorem shiftedZoomI32_eq (z : Nat) (hz : z ≤ 30) :
    ((shiftedZoomI32 z : ℤ) : ℚ) = 2 ^ z := by
  have hm : z % 32 = z := Nat.mod_eq_of_lt (by omega)
  have hle : (2 : ℤ) ^ z ≤ 2 ^ 30 := pow_le_pow_right₀ (by norm_num) hz
  have hval : shiftedZoomI32 z = 2 ^ z := by
    rw [shiftedZoomI32, hm, Int.emod_eq_of_lt (by positivity) (by norm_num at hle ⊢; omega)]
    ring
  rw [hval]
  push_cast
  ring

/-- At zoom 31 the `i32` shift wraps negative, so `tile_size_meters` is
negative there; the C1 statement therefore stops at zoom 30. -/
theorem shiftedZoomI32_wraps : shiftedZoomI32 31 = -2 ^ 31 := by decide

theorem floorU32_spec (q : ℚ) (h0 : 0 ≤ q) (h1 : q ≤ 2 ^ 31) :
    ((F64.finite q).floorU32 : ℤ) = ⌊q⌋ := by
  have hf0 : (0 : ℤ) ≤ ⌊q⌋ := Int.floor_nonneg.mpr h0
  have hf1 : ⌊q⌋ ≤ 2 ^ 31 := by
    have h2 : (⌊q⌋ : ℚ) ≤ 2 ^ 31 := le_trans (Int.floor_le q) h1
    exact_mod_cast h2
  show ((min (Int.toNat ⌊q⌋) (2 ^ 32 - 1) : Nat) : ℤ) = ⌊q⌋
  omega

theorem ceilU32_spec (q : ℚ) (h0 : 0 < q) (h1 : q ≤ 2 ^ 31) :
    (u32SubOne (F64.finite q).ceilU32 : ℤ) = ⌈q⌉ - 1 := by
  have hc0 : 0 < ⌈q⌉ := Int.ceil_pos.mpr h0
  have hc1 : ⌈q⌉ ≤ 2 ^ 31 := by
    rw [Int.ceil_le]
    push_cast
    exact h1
  show (((min (Int.toNat ⌈q⌉) (2 ^ 32 - 1) + (2 ^ 32 - 1)) % 2 ^ 32 : Nat) : ℤ) = ⌈q⌉ - 1
  omega

theorem bboxCoveredGeneral :
    ∀ (mx my Mx My : ℚ) (z : Nat),
      -WEB_MERCATOR_EXTENT ≤ mx → mx ≤ WEB_MERCATOR_EXTENT →
      -WEB_MERCATOR_EXTENT < Mx → Mx ≤ WEB_MERCATOR_EXTENT →
      -WEB_MERCATOR_EXTENT ≤ my → my < WEB_MERCATOR_EXTENT →
      -WEB_MERCATOR_EXTENT ≤ My → My ≤ WEB_MERCATOR_EXTENT →
      z ≤ 30 →
      ∃ a b c d : Nat,
        (a : ℤ) = ⌊(mx + WEB_MERCATOR_EXTENT) / (2 * WEB_MERCATOR_EXTENT / 2 ^ z)⌋ ∧
        (b : ℤ) = ⌈(Mx + WEB_MERCATOR_EXTENT) / (2 * WEB_MERCATOR_EXTENT / 2 ^ z)⌉ - 1 ∧
        (c : ℤ) = ⌊(WEB_MERCATOR_EXTENT - My) / (2 * WEB_MERCATOR_EXTENT / 2 ^ z)⌋ ∧
        (d : ℤ) = ⌈(WEB_MERCATOR_EXTENT - my) / (2 * WEB_MERCATOR_EXTENT / 2 ^ z)⌉ - 1 ∧
        (bbox_covered_tiles
            (BBox.new (.finite mx) (.finite my) (.finite Mx) (.finite My)) z).collect =
          (rangeIncl c d).flatMap fun yy =>
            (rangeIncl a b).map fun xx => { zoom := z, x := xx, y := yy } := by
  have hE : 0 < WEB_MERCATOR_EXTENT := extent_pos
  intro mx my Mx My z h1 h2 h3 h4 h5 h6 h7 h8 hz
  have hsz : ((shiftedZoomI32 z : ℤ) : ℚ) = 2 ^ z := shiftedZoomI32_eq z hz
  have h2z : (0 : ℚ) < 2 ^ z := by positivity
  have hts_pos : (0 : ℚ) < WEB_MERCATOR_EXTENT * 2 / 2 ^ z := by positivity
  have hpow : (2 : ℚ) ^ z ≤ 2 ^ 31 := pow_le_pow_right₀ (by norm_num) (by omega)
  have hdiv_le : ∀ v : ℚ, v ≤ 2 * WEB_MERCATOR_EXTENT →
      v / (WEB_MERCATOR_EXTENT * 2 / 2 ^ z) ≤ 2 ^ 31 := by
    intro v hv
    refine le_trans ?_ hpow
    rw [div_le_iff₀ hts_pos]
    have he : (2 : ℚ) ^ z * (WEB_MERCATOR_EXTENT * 2 / 2 ^ z) =
        WEB_MERCATOR_EXTENT * 2 := by
      field_simp
    rw [he]
    linarith
  have ha := floorU32_spec ((mx + WEB_MERCATOR_EXTENT) / (WEB_MERCATOR_EXTENT * 2 / 2 ^ z))
    (div_nonneg (by linarith) hts_pos.le) (hdiv_le _ (by linarith))
  have hb := ceilU32_spec ((Mx + WEB_MERCATOR_EXTENT) / (WEB_MERCATOR_EXTENT * 2 / 2 ^ z))
    (div_pos (by linarith) hts_pos) (hdiv_le _ (by linarith))
  have hc := floorU32_spec ((WEB_MERCATOR_EXTENT - My) / (WEB_MERCATOR_EXTENT * 2 / 2 ^ z))
    (div_nonneg (by linarith) hts_pos.le) (hdiv_le _ (by linarith))
  have hd := ceilU32_spec ((WEB_MERCATOR_EXTENT - my) / (WEB_MERCATOR_EXTENT * 2 / 2 ^ z))
    (div_pos (by linarith) hts_pos) (hdiv_le _ (by linarith))
  refine ⟨(F64.finite ((mx + WEB_MERCATOR_EXTENT) / (WEB_MERCATOR_EXTENT * 2 / 2 ^ z))).floorU32,
    u32SubOne (F64.finite ((Mx + WEB_MERCATOR_EXTENT) / (WEB_MERCATOR_EXTENT * 2 / 2 ^ z))).ceilU32,
    (F64.finite ((WEB_MERCATOR_EXTENT - My) / (WEB_MERCATOR_EXTENT * 2 / 2 ^ z))).floorU32,
    u32SubOne (F64.finite ((WEB_MERCATOR_EXTENT - my) / (WEB_MERCATOR_EXTENT * 2 / 2 ^ z))).ceilU32,
    ?_, ?_, ?_, ?_, ?_⟩
  · rw [mul_comm (2 : ℚ) WEB_MERCATOR_EXTENT]; exact ha
  · rw [mul_comm (2 : ℚ) WEB_MERCATOR_EXTENT]; exact hb
  · rw [mul_comm (2 : ℚ) WEB_MERCATOR_EXTENT]; exact hc
  · rw [mul_comm (2 : ℚ) WEB_MERCATOR_EXTENT]; exact hd
  · simp only [bbox_covered_tiles, BBox.new, F64.addQ, F64.rsubQ, F64.divQ]
    rw [hsz, collect_new]

/-- C1: `bbox_covered_tiles` returns the row-major iterator over the
inclusive rectangle `[min_tile_x, max_tile_x] × [min_tile_y, max_tile_y]`
given by the claimed floor/ceil formulas (stated for bounding boxes inside
the Web Mercator square at zooms `≤ 30`: at zoom 31 the source's
`1 << zoom`, an `i32` shift, wraps to `-2^31` and `tile_size_meters` turns
negative, so the formulas with a positive `2 ^ zoom` no longer describe the
code there), and the concrete zoom-7 example enumerates exactly the six
listed tiles in that order.  Floating point is modelled by exact rational
arithmetic. -/
theorem c1_bbox_covered_tiles :
    (∀ (mx my Mx My : ℚ) (z : Nat),
      -WEB_MERCATOR_EXTENT ≤ mx → mx ≤ WEB_MERCATOR_EXTENT →
      -WEB_MERCATOR_EXTENT < Mx → Mx ≤ WEB_MERCATOR_EXTENT →
      -WEB_MERCATOR_EXTENT ≤ my → my < WEB_MERCATOR_EXTENT →
      -WEB_MERCATOR_EXTENT ≤ My → My ≤ WEB_MERCATOR_EXTENT →
      z ≤ 30 →
      ∃ a b c d : Nat,
        (a : ℤ) = ⌊(mx + WEB_MERCATOR_EXTENT) / (2 * WEB_MERCATOR_EXTENT / 2 ^ z)⌋ ∧
        (b : ℤ) = ⌈(Mx + WEB_MERCATOR_EXTENT) / (2 * WEB_MERCATOR_EXTENT / 2 ^ z)⌉ - 1 ∧
        (c : ℤ) = ⌊(WEB_MERCATOR_EXTENT - My) / (2 * WEB_MERCATOR_EXTENT / 2 ^ z)⌋ ∧
        (d : ℤ) = ⌈(WEB_MERCATOR_EXTENT - my) / (2 * WEB_MERCATOR_EXTENT / 2 ^ z)⌉ - 1 ∧
        (bbox_covered_tiles
            (BBox.new (.finite mx) (.finite my) (.finite Mx) (.finite My)) z).collect =
          (rangeIncl c d).flatMap fun yy =>
            (rangeIncl a b).map fun xx => { zoom := z, x := xx, y := yy }) ∧
    (bbox_covered_tiles
        (BBox.new (.finite 1137489) (.finite 5980732) (.finite 1711100) (.finite 6428543))
        7).collect =
      [⟨7, 67, 43⟩, ⟨7, 68, 43⟩, ⟨7, 69, 43⟩, ⟨7, 67, 44⟩, ⟨7, 68, 44⟩, ⟨7, 69, 44⟩] := by
  refine ⟨bboxCoveredGeneral, ?_⟩
  obtain ⟨a, b, c, d, ha, hb, hc, hd, hcol⟩ :=
    bboxCoveredGeneral 1137489 5980732 1711100 6428543 7
      (by norm_num [WEB_MERCATOR_EXTENT, PI64]) (by norm_num [WEB_MERCATOR_EXTENT, PI64])
      (by norm_num [WEB_MERCATOR_EXTENT, PI64]) (by norm_num [WEB_MERCATOR_EXTENT, PI64])
      (by norm_num [WEB_MERCATOR_EXTENT, PI64]) (by norm_num [WEB_MERCATOR_EXTENT, PI64])
      (by norm_num [WEB_MERCATOR_EXTENT, PI64]) (by norm_num [WEB_MERCATOR_EXTENT, PI64])
      (by norm_num)
  have ea : (⌊((1137489 : ℚ) + WEB_MERCATOR_EXTENT) /
      (2 * WEB_MERCATOR_EXTENT / 2 ^ (7 : Nat))⌋ : ℤ) = 67 := by
    norm_num [WEB_MERCATOR_EXTENT, PI64]
  have eb : (⌈((1711100 : ℚ) + WEB_MERCATOR_EXTENT) /
      (2 * WEB_MERCATOR_EXTENT / 2 ^ (7 : Nat))⌉ : ℤ) = 70 := by
    rw [Int.ceil_eq_iff]
    norm_num [WEB_MERCATOR_EXTENT, PI64]
  have ec : (⌊(WEB_MERCATOR_EXTENT - (6428543 : ℚ)) /
      (2 * WEB_MERCATOR_EXTENT / 2 ^ (7 : Nat))⌋ : ℤ) = 43 := by
    norm_num [WEB_MERCATOR_EXTENT, PI64]
  have ed : (⌈(WEB_MERCATOR_EXTENT - (5980732 : ℚ)) /
      (2 * WEB_MERCATOR_EXTENT / 2 ^ (7 : Nat))⌉ : ℤ) = 45 := by
    rw [Int.ceil_eq_iff]
    norm_num [WEB_MERCATOR_EXTENT, PI64]
  rw [ea] at ha
  rw [eb] at hb
  rw [ec] at hc
  rw [ed] at hd
  have e1 : a = 67 := by omega
  have e2 : b = 69 := by omega
  have e3 : c = 43 := by omega
  have e4 : d = 44 := by omega
  subst e1; subst e2; subst e3; subst e4
  rw [hcol]
  decide

/-- Witness for C1's general part, instantiated at the repository's zoom-7
example bounding box with all hypotheses discharged numerically. -/
theorem c1_bbox_covered_tiles_witness :
    ∃ a b c d : Nat,
      (a : ℤ) = ⌊((1137489 : ℚ) + WEB_MERCATOR_EXTENT) /
          (2 * WEB_MERCATOR_EXTENT / 2 ^ (7 : Nat))⌋ ∧
      (b : ℤ) = ⌈((1711100 : ℚ) + WEB_MERCATOR_EXTENT) /
          (2 * WEB_MERCATOR_EXTENT / 2 ^ (7 : Nat))⌉ - 1 ∧
      (c : ℤ) = ⌊(WEB_MERCATOR_EXTENT - (6428543 : ℚ)) /
          (2 * WEB_MERCATOR_EXTENT / 2 ^ (7 : Nat))⌋ ∧
      (d : ℤ) = ⌈(WEB_MERCATOR_EXTENT - (5980732 : ℚ)) /
          (2 * WEB_MERCATOR_EXTENT / 2 ^ (7 : Nat))⌉ - 1 ∧
      (bbox_covered_tiles
          (BBox.new (.finite 1137489) (.finite 5980732) (.finite 1711100) (.finite 6428543))
          7).collect =
        (rangeIncl c d).flatMap fun yy =>
          (rangeIncl a b).map fun xx => { zoom := 7, x := xx, y := yy } :=
  c1_bbox_covered_tiles.1 1137489 5980732 1711100 6428543 7
    (by norm_num [WEB_MERCATOR_EXTENT, PI64]) (by norm_num [WEB_MERCATOR_EXTENT, PI64])
    (by norm_num [WEB_MERCATOR_EXTENT, PI64]) (by norm_num [WEB_MERCATOR_EXTENT, PI64])
    (by norm_num [WEB_MERCATOR_EXTENT, PI64]) (by norm_num [WEB_MERCATOR_EXTENT, PI64])
    (by norm_num [WEB_MERCATOR_EXTENT, PI64]) (by norm_num [WEB_MERCATOR_EXTENT, PI64])
    (by norm_num)

/-! ### Decimal digits: printing and parsing -/

theorem digitVal_digitChar (d : Nat) (h : d < 10) : digitVal (digitChar d) = some d := by
  interval_cases d <;> decide

theorem natDigits_ne_nil (n : Nat) : natDigits n ≠ [] := by
  rw [natDigits]
  split <;> simp

theorem mem_natDigits : ∀ n, ∀ c ∈ natDigits n, (digitVal c).isSome := by
  intro n
  induction n using Nat.strong_induction_on with
  | _ n ih =>
    intro c hc
    rw [natDigits] at hc
    split at hc
    · simp only [List.mem_singleton] at hc
      subst hc
      rw [digitVal_digitChar n (by omega)]
      rfl
    · rcases List.mem_append.mp hc with h | h
      · exact ih (n / 10) (Nat.div_lt_self (by omega) (by omega)) c h
      · simp only [List.mem_singleton] at h
        subst h
        rw [digitVal_digitChar (n % 10) (by omega)]
        rfl

theorem digit_bounds (c : Char) (h : (digitVal c).isSome) : '0' ≤ c ∧ c ≤ '9' := by
  unfold digitVal at h
  split at h
  · assumption
  · cases h

theorem digit_ne (c s : Char) (h : (digitVal c).isSome) (hs : digitVal s = none) :
    c ≠ s := by
  intro he
  subst he
  rw [hs] at h
  cases h

theorem toLowerChar_digit (c : Char) (h : (digitVal c).isSome) : toLowerChar c = c := by
  obtain ⟨_, h9⟩ := digit_bounds c h
  unfold toLowerChar
  rw [if_neg]
  rintro ⟨hA, _⟩
  exact absurd (le_trans hA h9) (by decide)

theorem decValue_go : ∀ (ds : List Char) (a : Nat),
    ds.foldl (fun a c => 10 * a + (digitVal c).getD 0) a =
      a * 10 ^ ds.length + decValue ds := by
  intro ds
  induction ds with
  | nil => intro a; simp [decValue]
  | cons c t ih =>
    intro a
    show t.foldl _ (10 * a + (digitVal c).getD 0) = _
    rw [ih (10 * a + (digitVal c).getD 0)]
    have hd : decValue (c :: t) =
        (digitVal c).getD 0 * 10 ^ t.length + decValue t := by
      show t.foldl _ (10 * 0 + (digitVal c).getD 0) = _
      rw [ih (10 * 0 + (digitVal c).getD 0)]
      ring
    rw [hd, List.length_cons, pow_succ]
    ring

theorem decValue_natDigits : ∀ n, decValue (natDigits n) = n := by
  intro n
  induction n using Nat.strong_induction_on with
  | _ n ih =>
    by_cases h : n < 10
    · rw [show decValue (natDigits n) = decValue [digitChar n] by rw [natDigits, if_pos h]]
      simp [decValue, digitVal_digitChar n h]
    · rw [show decValue (natDigits n) =
          decValue (natDigits (n / 10) ++ [digitChar (n % 10)]) by
        rw [natDigits, if_neg h]]
      unfold decValue
      rw [List.foldl_append, decValue_go (natDigits (n / 10)) 0]
      show 10 * (0 * 10 ^ (natDigits (n / 10)).length + decValue (natDigits (n / 10))) +
        (digitVal (digitChar (n % 10))).getD 0 = n
      rw [ih (n / 10) (Nat.div_lt_self (by omega) (by omega)),
        digitVal_digitChar (n % 10) (by omega)]
      show 10 * (0 * 10 ^ (natDigits (n / 10)).length + n / 10) + n % 10 = n
      omega

theorem decValue_append (a b : List Char) :
    decValue (a ++ b) = decValue a * 10 ^ b.length + decValue b := by
  show (a ++ b).foldl _ 0 = _
  rw [List.foldl_append, decValue_go b]
  rfl

theorem decValue_zeros : ∀ j, decValue (List.replicate j '0') = 0 := by
  intro j
  induction j with
  | zero => rfl
  | succ m ihm =>
    rw [List.replicate_succ]
    show (List.replicate m '0').foldl _ (10 * 0 + (digitVal '0').getD 0) = 0
    rw [decValue_go]
    rw [show (10 * 0 + (digitVal '0').getD 0) = 0 from rfl]
    simpa using ihm

theorem stripPlus_of_ne (cs : List Char) (h : ∀ c ∈ cs, c ≠ '+') : stripPlus cs = cs := by
  cases cs with
  | nil => rfl
  | cons c t =>
    show (if c = '+' then t else c :: t) = c :: t
    rw [if_neg (h c (List.mem_cons_self c t))]

theorem parseUInt_natDigits (bound n : Nat) (h : n < bound) :
    parseUInt bound (natDigits n) = some n := by
  unfold parseUInt
  rw [stripPlus_of_ne _ (fun c hc => digit_ne c '+' (mem_natDigits n c hc) (by decide))]
  rw [if_pos ⟨natDigits_ne_nil n,
    by rw [List.all_eq_true]; intro c hc; exact mem_natDigits n c hc,
    by rw [decValue_natDigits]; exact h⟩]
  rw [decValue_natDigits]

/-! ### Tile text round-trip -/

theorem breakAt_no_sep (sep : Char) : ∀ cs, (∀ c ∈ cs, c ≠ sep) →
    breakAtChar sep cs = (cs, none) := by
  intro cs
  induction cs with
  | nil => intro _; rfl
  | cons c t ih =>
    intro h
    unfold breakAtChar
    rw [if_neg (h c (List.mem_cons_self c t)),
      ih (fun x hx => h x (List.mem_cons_of_mem c hx))]

theorem breakAt_append (sep : Char) : ∀ a rest, (∀ c ∈ a, c ≠ sep) →
    breakAtChar sep (a ++ sep :: rest) = (a, some rest) := by
  intro a
  induction a with
  | nil =>
    intro rest _
    show breakAtChar sep (sep :: rest) = ([], some rest)
    unfold breakAtChar
    rw [if_pos rfl]
  | cons c t ih =>
    intro rest h
    show breakAtChar sep (c :: (t ++ sep :: rest)) = (c :: t, some rest)
    unfold breakAtChar
    rw [if_neg (h c (List.mem_cons_self c t)),
      ih rest (fun x hx => h x (List.mem_cons_of_mem c hx))]

theorem splitnChar_cons (n : Nat) (sep : Char) (a rest : List Char)
    (h : ∀ c ∈ a, c ≠ sep) :
    splitnChar (n + 2) sep (a ++ sep :: rest) = a :: splitnChar (n + 1) sep rest := by
  rw [show splitnChar (n + 2) sep (a ++ sep :: rest) =
      (match breakAtChar sep (a ++ sep :: rest) with
        | (a, none) => [a]
        | (a, some r) => a :: splitnChar (n + 1) sep r) from rfl,
    breakAt_append sep a rest h]

theorem tile_display_split (t : Tile) :
    splitnChar 3 '/' t.display = [natDigits t.zoom, natDigits t.x, natDigits t.y] := by
  have hz : ∀ c ∈ natDigits t.zoom, c ≠ '/' :=
    fun c hc => digit_ne c '/' (mem_natDigits _ c hc) (by decide)
  have hx : ∀ c ∈ natDigits t.x, c ≠ '/' :=
    fun c hc => digit_ne c '/' (mem_natDigits _ c hc) (by decide)
  have e1 : splitnChar 3 '/'
      (natDigits t.zoom ++ '/' :: (natDigits t.x ++ '/' :: natDigits t.y)) =
      natDigits t.zoom :: splitnChar 2 '/' (natDigits t.x ++ '/' :: natDigits t.y) :=
    splitnChar_cons 1 '/' _ _ hz
  have e2 : splitnChar 2 '/' (natDigits t.x ++ '/' :: natDigits t.y) =
      natDigits t.x :: splitnChar 1 '/' (natDigits t.y) :=
    splitnChar_cons 0 '/' _ _ hx
  have hd : t.display =
      natDigits t.zoom ++ '/' :: (natDigits t.x ++ '/' :: natDigits t.y) := by
    simp [Tile.display]
  rw [hd, e1, e2]
  rfl

theorem tile_roundtrip (t : Tile) (hz : t.zoom < 2 ^ 8) (hx : t.x < 2 ^ 32)
    (hy : t.y < 2 ^ 32) : Tile.fromStr t.display = .ok t := by
  unfold Tile.fromStr
  rw [tile_display_split t]
  show (match parseUInt (2 ^ 8) (natDigits t.zoom), parseUInt (2 ^ 32) (natDigits t.x),
      parseUInt (2 ^ 32) (natDigits t.y) with
    | some zoom, some x, some y => Except.ok { zoom := zoom, x := x, y := y }
    | _, _, _ => Except.error ParseError.parseError) = Except.ok t
  rw [parseUInt_natDigits _ _ hz, parseUInt_natDigits _ _ hx, parseUInt_natDigits _ _ hy]

/-! ### f64 text: printing and parsing -/

theorem takeWhile_digits_all (cs : List Char) (h : ∀ c ∈ cs, (digitVal c).isSome) :
    cs.takeWhile (fun c => (digitVal c).isSome) = cs := by
  induction cs with
  | nil => rfl
  | cons c t ih =>
    rw [List.takeWhile_cons, if_pos (h c (List.mem_cons_self c t)),
      ih fun x hx => h x (List.mem_cons_of_mem c hx)]

theorem dropWhile_digits_all (cs : List Char) (h : ∀ c ∈ cs, (digitVal c).isSome) :
    cs.dropWhile (fun c => (digitVal c).isSome) = [] := by
  induction cs with
  | nil => rfl
  | cons c t ih =>
    rw [List.dropWhile_cons, if_pos (h c (List.mem_cons_self c t)),
      ih fun x hx => h x (List.mem_cons_of_mem c hx)]

theorem takeWhile_digits_upto (s : Char) (hs : digitVal s = none) :
    ∀ (a b : List Char), (∀ c ∈ a, (digitVal c).isSome) →
    (a ++ s :: b).takeWhile (fun c => (digitVal c).isSome) = a := by
  intro a
  induction a with
  | nil =>
    intro b _
    show (s :: b).takeWhile _ = []
    rw [List.takeWhile_cons, if_neg]
    rw [hs]
    simp
  | cons c t ih =>
    intro b ha
    show ((c :: (t ++ s :: b)).takeWhile _ : List Char) = c :: t
    rw [List.takeWhile_cons, if_pos (ha c (List.mem_cons_self c t)),
      ih b fun x hx => ha x (List.mem_cons_of_mem c hx)]

theorem dropWhile_digits_upto (s : Char) (hs : digitVal s = none) :
    ∀ (a b : List Char), (∀ c ∈ a, (digitVal c).isSome) →
    (a ++ s :: b).dropWhile (fun c => (digitVal c).isSome) = s :: b := by
  intro a
  induction a with
  | nil =>
    intro b _
    show (s :: b).dropWhile _ = s :: b
    rw [List.dropWhile_cons, if_neg]
    rw [hs]
    simp
  | cons c t ih =>
    intro b ha
    show ((c :: (t ++ s :: b)).dropWhile _ : List Char) = s :: b
    rw [List.dropWhile_cons, if_pos (ha c (List.mem_cons_self c t)),
      ih b fun x hx => ha x (List.mem_cons_of_mem c hx)]

theorem takeDigits_all (cs : List Char) (h : ∀ c ∈ cs, (digitVal c).isSome) :
    takeDigits cs = (cs, []) := by
  unfold takeDigits
  rw [takeWhile_digits_all cs h, dropWhile_digits_all cs h]

theorem takeDigits_upto (a : List Char) (s : Char) (b : List Char)
    (ha : ∀ c ∈ a, (digitVal c).isSome) (hs : digitVal s = none) :
    takeDigits (a ++ s :: b) = (a, s :: b) := by
  unfold takeDigits
  rw [takeWhile_digits_upto s hs a b ha, dropWhile_digits_upto s hs a b ha]

theorem mem_padded (N k : Nat) :
    ∀ c ∈ List.replicate (k + 1 - (natDigits N).length) '0' ++ natDigits N,
      (digitVal c).isSome := by
  intro c hc
  rcases List.mem_append.mp hc with h | h
  · rw [List.eq_of_mem_replicate h]; decide
  · exact mem_natDigits N c h

theorem padded_len (N k : Nat) :
    k + 1 ≤ (List.replicate (k + 1 - (natDigits N).length) '0' ++ natDigits N).length := by
  rw [List.length_append, List.length_replicate]
  have hlen : 1 ≤ (natDigits N).length :=
    List.length_pos.mpr (natDigits_ne_nil N)
  omega

theorem decValue_padded (N k : Nat) :
    decValue (List.replicate (k + 1 - (natDigits N).length) '0' ++ natDigits N) = N := by
  rw [decValue_append, decValue_zeros, decValue_natDigits]
  simp

theorem split_value (P : List Char) (k : Nat) (hlen : k ≤ P.length) :
    ((decValue (P.take (P.length - k)) : ℚ) +
        (decValue (P.drop (P.length - k)) : ℚ) / 10 ^ k) * 10 ^ k =
      decValue P := by
  have h10 : ((10 : ℚ)) ^ k ≠ 0 := by positivity
  have hdlen : (P.drop (P.length - k)).length = k := by
    rw [List.length_drop]
    omega
  have hdec : decValue (P.take (P.length - k)) * 10 ^ k +
      decValue (P.drop (P.length - k)) = decValue P := by
    have h := decValue_append (P.take (P.length - k)) (P.drop (P.length - k))
    rw [hdlen, List.take_append_drop] at h
    omega
  rw [add_mul, div_mul_cancel₀ _ h10]
  exact_mod_cast hdec

theorem parseMantissa_posDigits (N k : Nat) :
    ∃ m : ℚ, parseMantissa (posDigitsWithPoint N k) = some (m, []) ∧
      m * 10 ^ k = N := by
  by_cases hk : k = 0
  · subst hk
    have hP : posDigitsWithPoint N 0 =
        List.replicate (0 + 1 - (natDigits N).length) '0' ++ natDigits N := by
      simp [posDigitsWithPoint]
    have hne : List.replicate (0 + 1 - (natDigits N).length) '0' ++ natDigits N ≠ [] := by
      intro he
      have h1 := padded_len N 0
      rw [he] at h1
      simp at h1
    refine ⟨(N : ℚ), ?_, by rw [pow_zero, mul_one]⟩
    rw [hP]
    unfold parseMantissa
    rw [takeDigits_all _ (mem_padded N 0)]
    show (if List.replicate (0 + 1 - (natDigits N).length) '0' ++ natDigits N = []
        then none
        else some ((decValue (List.replicate (0 + 1 - (natDigits N).length) '0' ++
          natDigits N) : ℚ),
          (List.replicate (0 + 1 - (natDigits N).length) '0' ++ natDigits N,
            ([] : List Char)).2)) = some ((N : ℚ), [])
    rw [if_neg hne, decValue_padded N 0]
  · -- k ≠ 0: the text is `take (L-k) ++ '.' :: drop (L-k)` of the padded digits
    have hL := padded_len N k
    have hP : posDigitsWithPoint N k =
        (List.replicate (k + 1 - (natDigits N).length) '0' ++ natDigits N).take
            ((List.replicate (k + 1 - (natDigits N).length) '0' ++ natDigits N).length - k) ++
          '.' :: (List.replicate (k + 1 - (natDigits N).length) '0' ++ natDigits N).drop
            ((List.replicate (k + 1 - (natDigits N).length) '0' ++ natDigits N).length - k) := by
      simp [posDigitsWithPoint, hk]
    generalize hpad : List.replicate (k + 1 - (natDigits N).length) '0' ++ natDigits N
      = P at hP hL
    have hdig : ∀ c ∈ P, (digitVal c).isSome := by
      rw [← hpad]; exact mem_padded N k
    have hNval : decValue P = N := by
      rw [← hpad]; exact decValue_padded N k
    have hAdig : ∀ c ∈ P.take (P.length - k), (digitVal c).isSome :=
      fun c hc => hdig c (List.take_subset _ _ hc)
    have hBdig : ∀ c ∈ P.drop (P.length - k), (digitVal c).isSome :=
      fun c hc => hdig c (List.drop_subset _ _ hc)
    have hAne : P.take (P.length - k) ≠ [] := by
      have : (P.take (P.length - k)).length = P.length - k := by
        rw [List.length_take]
        omega
      intro he
      rw [he] at this
      simp at this
      omega
    have hBlen : (P.drop (P.length - k)).length = k := by
      rw [List.length_drop]
      omega
    refine ⟨(decValue (P.take (P.length - k)) : ℚ) +
      (decValue (P.drop (P.length - k)) : ℚ) / 10 ^ k, ?_, ?_⟩
    · rw [hP]
      unfold parseMantissa
      rw [takeDigits_upto _ '.' _ hAdig (by decide)]
      show (if P.take (P.length - k) = [] ∧ (takeDigits (P.drop (P.length - k))).1 = []
          then none
          else some ((decValue (P.take (P.length - k)) : ℚ) +
            (decValue ((takeDigits (P.drop (P.length - k))).1) : ℚ) /
              10 ^ ((takeDigits (P.drop (P.length - k))).1).length,
            (takeDigits (P.drop (P.length - k))).2)) = _
      rw [takeDigits_all _ hBdig]
      show (if P.take (P.length - k) = [] ∧ P.drop (P.length - k) = []
          then none
          else some ((decValue (P.take (P.length - k)) : ℚ) +
            (decValue (P.drop (P.length - k)) : ℚ) / 10 ^ (P.drop (P.length - k)).length,
            ([] : List Char))) = _
      rw [if_neg (fun hcon => hAne hcon.1), hBlen]
    · rw [split_value P k (by omega), hNval]

theorem posDigits_cons (N k : Nat) :
    ∃ c cs, posDigitsWithPoint N k = c :: cs ∧ (digitVal c).isSome := by
  have hL := padded_len N k
  have hdig := mem_padded N k
  by_cases hk : k = 0
  · subst hk
    have hP : posDigitsWithPoint N 0 =
        List.replicate (0 + 1 - (natDigits N).length) '0' ++ natDigits N := by
      simp [posDigitsWithPoint]
    cases hpd : List.replicate (0 + 1 - (natDigits N).length) '0' ++ natDigits N with
    | nil =>
      rw [hpd] at hL
      simp at hL
    | cons c t =>
      refine ⟨c, t, by rw [hP, hpd], ?_⟩
      exact hdig c (by rw [hpd]; exact List.mem_cons_self c t)
  · have hP : posDigitsWithPoint N k =
        (List.replicate (k + 1 - (natDigits N).length) '0' ++ natDigits N).take
            ((List.replicate (k + 1 - (natDigits N).length) '0' ++ natDigits N).length - k) ++
          '.' :: (List.replicate (k + 1 - (natDigits N).length) '0' ++ natDigits N).drop
            ((List.replicate (k + 1 - (natDigits N).length) '0' ++ natDigits N).length - k) := by
      simp [posDigitsWithPoint, hk]
    generalize hpad : List.replicate (k + 1 - (natDigits N).length) '0' ++ natDigits N
      = P at hP hL hdig
    cases P with
    | nil => simp at hL
    | cons c t =>
      obtain ⟨s, hs⟩ : ∃ s, (c :: t).length - k = s + 1 :=
        ⟨(c :: t).length - k - 1, by omega⟩
      refine ⟨c, t.take s ++ '.' :: (c :: t).drop ((c :: t).length - k), ?_, ?_⟩
      · rw [hP, hs, List.take_succ_cons]
        rfl
      · exact hdig c (List.mem_cons_self c t)

theorem splitSign_digit (c : Char) (cs : List Char) (h : (digitVal c).isSome) :
    splitSign (c :: cs) = (false, c :: cs) := by
  show (if c = '-' then (true, cs)
    else if c = '+' then (false, cs) else (false, c :: cs)) = (false, c :: cs)
  rw [if_neg (digit_ne c '-' h (by decide)), if_neg (digit_ne c '+' h (by decide))]

theorem matchesKw_cons_false (c : Char) (cs : List Char) (x : Char) (kt : List Char)
    (h : toLowerChar c ≠ x) : matchesKw (c :: cs) (x :: kt) = false := by
  unfold matchesKw
  rw [List.map_cons, beq_eq_false_iff_ne]
  intro hcon
  injection hcon with h1 _
  exact h h1

theorem digit_not_kw (c : Char) (h : (digitVal c).isSome) :
    toLowerChar c ≠ 'i' ∧ toLowerChar c ≠ 'n' := by
  rw [toLowerChar_digit c h]
  exact ⟨digit_ne c 'i' h (by decide), digit_ne c 'n' h (by decide)⟩

theorem parseF64_posDigits (N k : Nat) (neg : Bool) :
    ∃ m : ℚ, parseF64 ((if neg then ['-'] else []) ++ posDigitsWithPoint N k) =
      .ok (.finite (if neg then -m else m)) ∧ m * 10 ^ k = N := by
  obtain ⟨c, cs, hP, hc⟩ := posDigits_cons N k
  obtain ⟨m, hm, hval⟩ := parseMantissa_posDigits N k
  have hsplit : splitSign ((if neg then ['-'] else []) ++ posDigitsWithPoint N k) =
      (neg, posDigitsWithPoint N k) := by
    cases neg with
    | false =>
      show splitSign (posDigitsWithPoint N k) = (false, posDigitsWithPoint N k)
      rw [hP]
      exact splitSign_digit c cs hc
    | true =>
      show splitSign ('-' :: posDigitsWithPoint N k) = (true, posDigitsWithPoint N k)
      rfl
  have hkw1 : matchesKw (posDigitsWithPoint N k) ['i', 'n', 'f'] = false := by
    rw [hP]; exact matchesKw_cons_false c cs 'i' _ (digit_not_kw c hc).1
  have hkw2 : matchesKw (posDigitsWithPoint N k)
      ['i', 'n', 'f', 'i', 'n', 'i', 't', 'y'] = false := by
    rw [hP]; exact matchesKw_cons_false c cs 'i' _ (digit_not_kw c hc).1
  have hkw3 : matchesKw (posDigitsWithPoint N k) ['n', 'a', 'n'] = false := by
    rw [hP]; exact matchesKw_cons_false c cs 'n' _ (digit_not_kw c hc).2
  refine ⟨m, ?_, hval⟩
  unfold parseF64
  rw [hsplit]
  show (if matchesKw (posDigitsWithPoint N k) ['i', 'n', 'f'] = true ∨
      matchesKw (posDigitsWithPoint N k) ['i', 'n', 'f', 'i', 'n', 'i', 't', 'y'] = true
    then Except.ok (if neg then F64.neginf else F64.inf)
    else if matchesKw (posDigitsWithPoint N k) ['n', 'a', 'n'] = true
    then Except.ok F64.nan
    else
      match parseMantissa (posDigitsWithPoint N k) with
      | none => Except.error FloatParseError.invalidFloat
      | some mr =>
        match mr.2 with
        | [] => Except.ok (F64.finite (if neg then -mr.1 else mr.1))
        | 'e' :: rest3 =>
          match parseExp rest3 with
          | some e => Except.ok (F64.finite ((if neg then -mr.1 else mr.1) * 10 ^ e))
          | none => Except.error FloatParseError.invalidFloat
        | 'E' :: rest3 =>
          match parseExp rest3 with
          | some e => Except.ok (F64.finite ((if neg then -mr.1 else mr.1) * 10 ^ e))
          | none => Except.error FloatParseError.invalidFloat
        | _ => Except.error FloatParseError.invalidFloat) =
    Except.ok (F64.finite (if neg then -m else m))
  rw [hkw1, hkw2, hkw3, hm]
  simp

theorem q_mul_pow (q : ℚ) (k : Nat) (hden : q.den = 2 ^ k) :
    q * 10 ^ k = (q.num : ℚ) * 5 ^ k := by
  have h2 : ((2 : ℚ)) ^ k ≠ 0 := by positivity
  conv_lhs => rw [← Rat.num_div_den q]
  rw [hden]
  push_cast
  field_simp
  rw [show (10 : ℚ) = 2 * 5 by norm_num, mul_pow]
  ring

theorem parseF64_ratDisplay (q : ℚ) (hd : dyadic q) :
    parseF64 (ratDisplay q) = .ok (.finite q) := by
  have hden : q.den = 2 ^ Nat.log2 q.den := hd
  have h10 : ((10 : ℚ)) ^ Nat.log2 q.den ≠ 0 := by positivity
  have hqval := q_mul_pow q (Nat.log2 q.den) hden
  by_cases hneg : q.num < 0
  · obtain ⟨m, hm, hval⟩ :=
      parseF64_posDigits (q.num.natAbs * 5 ^ Nat.log2 q.den) (Nat.log2 q.den) true
    have hdisp : ratDisplay q =
        (if true then ['-'] else []) ++
          posDigitsWithPoint (q.num.natAbs * 5 ^ Nat.log2 q.den) (Nat.log2 q.den) := by
      simp [ratDisplay, hneg]
    rw [hdisp, hm]
    have hmq : m = -q := by
      have hN : ((q.num.natAbs * 5 ^ Nat.log2 q.den : Nat) : ℚ) =
          -((q.num : ℚ)) * 5 ^ Nat.log2 q.den := by
        push_cast [Int.cast_natAbs]
        rw [abs_of_neg (show ((q.num : ℚ)) < 0 by exact_mod_cast hneg)]
      apply mul_right_cancel₀ h10
      rw [hval, hN, neg_mul, neg_mul, ← hqval]
    rw [hmq]
    simp
  · obtain ⟨m, hm, hval⟩ :=
      parseF64_posDigits (q.num.natAbs * 5 ^ Nat.log2 q.den) (Nat.log2 q.den) false
    have hdisp : ratDisplay q =
        (if false then ['-'] else []) ++
          posDigitsWithPoint (q.num.natAbs * 5 ^ Nat.log2 q.den) (Nat.log2 q.den) := by
      simp [ratDisplay, hneg]
    rw [hdisp, hm]
    have hmq : m = q := by
      have hN : ((q.num.natAbs * 5 ^ Nat.log2 q.den : Nat) : ℚ) =
          ((q.num : ℚ)) * 5 ^ Nat.log2 q.den := by
        push_cast [Int.cast_natAbs]
        rw [abs_of_nonneg (show (0 : ℚ) ≤ (q.num : ℚ) by exact_mod_cast (by omega : 0 ≤ q.num))]
      apply mul_right_cancel₀ h10
      rw [hval, hN, ← hqval]
    rw [hmq]
    simp

theorem parseF64_display (v : F64) (h : v.representable) :
    parseF64 v.display = .ok v := by
  cases v with
  | inf => rfl
  | neginf => rfl
  | nan => rfl
  | finite q => exact parseF64_ratDisplay q h

theorem mem_posDigits (N k : Nat) :
    ∀ c ∈ posDigitsWithPoint N k, (digitVal c).isSome ∨ c = '.' := by
  by_cases hk : k = 0
  · subst hk
    have hP : posDigitsWithPoint N 0 =
        List.replicate (0 + 1 - (natDigits N).length) '0' ++ natDigits N := by
      simp [posDigitsWithPoint]
    intro c hc
    rw [hP] at hc
    exact Or.inl (mem_padded N 0 c hc)
  · have hP : posDigitsWithPoint N k =
        (List.replicate (k + 1 - (natDigits N).length) '0' ++ natDigits N).take
            ((List.replicate (k + 1 - (natDigits N).length) '0' ++ natDigits N).length - k) ++
          '.' :: (List.replicate (k + 1 - (natDigits N).length) '0' ++ natDigits N).drop
            ((List.replicate (k + 1 - (natDigits N).length) '0' ++ natDigits N).length - k) := by
      simp [posDigitsWithPoint, hk]
    intro c hc
    rw [hP] at hc
    rcases List.mem_append.mp hc with h | h
    · exact Or.inl (mem_padded N k c (List.take_subset _ _ h))
    · rcases List.mem_cons.mp h with rfl | h
      · exact Or.inr rfl
      · exact Or.inl (mem_padded N k c (List.drop_subset _ _ h))

theorem mem_ratDisplay (q : ℚ) :
    ∀ c ∈ ratDisplay q, (digitVal c).isSome ∨ c = '.' ∨ c = '-' := by
  intro c hc
  unfold ratDisplay at hc
  by_cases hneg : q.num < 0
  · rw [if_pos hneg] at hc
    rcases List.mem_cons.mp hc with rfl | h
    · exact Or.inr (Or.inr rfl)
    · rcases mem_posDigits _ _ c h with h1 | h1
      · exact Or.inl h1
      · exact Or.inr (Or.inl h1)
  · rw [if_neg hneg] at hc
    rcases mem_posDigits _ _ c hc with h1 | h1
    · exact Or.inl h1
    · exact Or.inr (Or.inl h1)

theorem nonspecial_char (c : Char) (h : (digitVal c).isSome ∨ c = '.' ∨ c = '-') :
    c ≠ ',' ∧ isWhitespaceChar c = false := by
  rcases h with h | rfl | rfl
  · refine ⟨digit_ne c ',' h (by decide), ?_⟩
    unfold isWhitespaceChar
    rw [decide_eq_false_iff_not]
    rintro (rfl | rfl | rfl | rfl) <;> exact absurd h (by decide)
  · exact ⟨by decide, by decide⟩
  · exact ⟨by decide, by decide⟩

theorem display_char_safe (v : F64) :
    ∀ c ∈ v.display, c ≠ ',' ∧ isWhitespaceChar c = false := by
  intro c hc
  cases v with
  | inf => fin_cases hc <;> exact ⟨by decide, by decide⟩
  | neginf => fin_cases hc <;> exact ⟨by decide, by decide⟩
  | nan => fin_cases hc <;> exact ⟨by decide, by decide⟩
  | finite q => exact nonspecial_char c (mem_ratDisplay q c hc)

theorem splitChar_ne_nil (sep : Char) : ∀ cs, splitChar sep cs ≠ [] := by
  intro cs
  cases cs with
  | nil => simp [splitChar]
  | cons c t =>
    show (match splitChar sep t with
      | [] => [[]]
      | h :: l => if c = sep then [] :: h :: l else (c :: h) :: l) ≠ []
    cases splitChar sep t with
    | nil => simp
    | cons h l =>
      show (if c = sep then [] :: h :: l else (c :: h) :: l) ≠ []
      split <;> simp

theorem splitChar_no_sep (sep : Char) : ∀ cs, (∀ c ∈ cs, c ≠ sep) →
    splitChar sep cs = [cs] := by
  intro cs
  induction cs with
  | nil => intro _; rfl
  | cons c t ih =>
    intro h
    show (match splitChar sep t with
      | [] => [[]]
      | hh :: l => if c = sep then [] :: hh :: l else (c :: hh) :: l) = [c :: t]
    rw [ih fun x hx => h x (List.mem_cons_of_mem c hx)]
    show (if c = sep then [] :: t :: ([] : List (List Char)) else [c :: t]) = [c :: t]
    rw [if_neg (h c (List.mem_cons_self c t))]

theorem splitChar_append (sep : Char) : ∀ a rest, (∀ c ∈ a, c ≠ sep) →
    splitChar sep (a ++ sep :: rest) = a :: splitChar sep rest := by
  intro a
  induction a with
  | nil =>
    intro rest _
    show (match splitChar sep rest with
      | [] => [[]]
      | hh :: l => if sep = sep then [] :: hh :: l else (sep :: hh) :: l) =
        [] :: splitChar sep rest
    cases hst : splitChar sep rest with
    | nil => exact absurd hst (splitChar_ne_nil sep rest)
    | cons hh l =>
      show (if sep = sep then [] :: hh :: l else (sep :: hh) :: l) = [] :: hh :: l
      rw [if_pos rfl]
  | cons c t ih =>
    intro rest h
    show (match splitChar sep (t ++ sep :: rest) with
      | [] => [[]]
      | hh :: l => if c = sep then [] :: hh :: l else (c :: hh) :: l) =
        (c :: t) :: splitChar sep rest
    rw [ih rest fun x hx => h x (List.mem_cons_of_mem c hx)]
    show (if c = sep then [] :: t :: splitChar sep rest
      else (c :: t) :: splitChar sep rest) = (c :: t) :: splitChar sep rest
    rw [if_neg (h c (List.mem_cons_self c t))]

theorem dropWhile_id_of_none (p : Char → Bool) (l : List Char)
    (h : ∀ c ∈ l, p c = false) : l.dropWhile p = l := by
  cases l with
  | nil => rfl
  | cons c t =>
    rw [List.dropWhile_cons, if_neg]
    rw [h c (List.mem_cons_self c t)]
    simp

theorem trimChars_id (cs : List Char) (h : ∀ c ∈ cs, isWhitespaceChar c = false) :
    trimChars cs = cs := by
  unfold trimChars
  rw [dropWhile_id_of_none _ cs h,
    dropWhile_id_of_none _ cs.reverse fun c hc => h c (List.mem_reverse.mp hc),
    List.reverse_reverse]

theorem bbox_display_split (b : BBox) :
    (splitChar ',' (BBox.display b)).map trimChars =
      [b.min_x.display, b.min_y.display, b.max_x.display, b.max_y.display] := by
  have hd : BBox.display b =
      b.min_x.display ++ ',' ::
        (b.min_y.display ++ ',' :: (b.max_x.display ++ ',' :: b.max_y.display)) := by
    simp [BBox.display]
  rw [hd,
    splitChar_append ',' _ _ fun c hc => (display_char_safe b.min_x c hc).1,
    splitChar_append ',' _ _ fun c hc => (display_char_safe b.min_y c hc).1,
    splitChar_append ',' _ _ fun c hc => (display_char_safe b.max_x c hc).1,
    splitChar_no_sep ',' _ fun c hc => (display_char_safe b.max_y c hc).1]
  simp only [List.map_cons, List.map_nil]
  rw [trimChars_id _ fun c hc => (display_char_safe b.min_x c hc).2,
    trimChars_id _ fun c hc => (display_char_safe b.min_y c hc).2,
    trimChars_id _ fun c hc => (display_char_safe b.max_x c hc).2,
    trimChars_id _ fun c hc => (display_char_safe b.max_y c hc).2]

theorem tile_fromStr_three (cs a b c : List Char)
    (hp : splitnChar 3 '/' cs = [a, b, c]) :
    Tile.fromStr cs =
      match parseUInt (2 ^ 8) a, parseUInt (2 ^ 32) b, parseUInt (2 ^ 32) c with
      | some zoom, some x, some y => Except.ok { zoom := zoom, x := x, y := y }
      | _, _, _ => Except.error ParseError.parseError := by
  unfold Tile.fromStr
  rw [hp]

theorem bbox_fromStr_four (cs a b c d : List Char)
    (hp : (splitChar ',' cs).map trimChars = [a, b, c, d]) :
    BBox.fromStr cs =
      (match parseF64 a with
      | Except.error e => Except.error (BBoxParseError.parseFloatError e)
      | Except.ok mx =>
        match parseF64 b with
        | Except.error e => Except.error (BBoxParseError.parseFloatError e)
        | Except.ok my =>
          match parseF64 c with
          | Except.error e => Except.error (BBoxParseError.parseFloatError e)
          | Except.ok Mx =>
            match parseF64 d with
            | Except.error e => Except.error (BBoxParseError.parseFloatError e)
            | Except.ok My => Except.ok (BBox.new mx my Mx My)) := by
  unfold BBox.fromStr
  rw [hp]

theorem beq_self_of_repr (v : F64) (h : v.representable) : F64.beq v v = true := by
  cases v with
  | finite q => simp [F64.beq]
  | inf => rfl
  | neginf => rfl
  | nan => exact absurd h (by simp [F64.representable])

theorem bbox_roundtrip (b : BBox) (h1 : b.min_x.representable)
    (h2 : b.min_y.representable) (h3 : b.max_x.representable)
    (h4 : b.max_y.representable) :
    BBox.fromStr (BBox.display b) = .ok b ∧ BBox.beq b b = true := by
  constructor
  · rw [bbox_fromStr_four _ _ _ _ _ (bbox_display_split b),
      parseF64_display _ h1, parseF64_display _ h2,
      parseF64_display _ h3, parseF64_display _ h4]
    rfl
  · unfold BBox.beq
    rw [beq_self_of_repr _ h1, beq_self_of_repr _ h2, beq_self_of_repr _ h3,
      beq_self_of_repr _ h4]
    rfl

theorem log2_one_eq : Nat.log2 1 = 0 := by
  rw [Nat.log2]
  simp

theorem log2_two_eq : Nat.log2 2 = 1 := by
  rw [Nat.log2]
  norm_num
  exact log2_one_eq

/-- C5 counterexample: a `BBox` holding `NaN` formats to `"NaN,0,0,0"`,
parses back to the bit-identical value, yet under the language's own
equality (`PartialEq`, IEEE semantics: `NaN ≠ NaN`) the parsed value is NOT
equal to the original — so format-then-parse is not the identity on every
`BBox`. -/
theorem c5_roundtrip_counterexample :
    BBox.fromStr (BBox.display (BBox.new .nan (.finite 0) (.finite 0) (.finite 0))) =
      .ok (BBox.new .nan (.finite 0) (.finite 0) (.finite 0)) ∧
    BBox.beq (BBox.new .nan (.finite 0) (.finite 0) (.finite 0))
      (BBox.new .nan (.finite 0) (.finite 0) (.finite 0)) = false := by
  have h0 : (F64.finite 0).representable := by
    show dyadic 0
    unfold dyadic
    norm_num [log2_one_eq]
  constructor
  · rw [bbox_fromStr_four _ _ _ _ _
      (bbox_display_split (BBox.new .nan (.finite 0) (.finite 0) (.finite 0)))]
    simp only [BBox.new]
    rw [show parseF64 F64.nan.display = .ok F64.nan from rfl,
      parseF64_display (F64.finite 0) h0]
  · rfl

/-- C5 (amended): formatting then parsing is the identity for every `Tile`
(whose fields fit the `u8`/`u32` machine types), and for every `BBox` whose
coordinates are `f64` values other than `NaN`; the parsed `BBox` is equal
to the original under IEEE (`PartialEq`) equality.  A `BBox` with a `NaN`
coordinate reparses to the identical representation but compares unequal
(`c5_roundtrip_counterexample`). -/
theorem c5_text_roundtrip :
    (∀ t : Tile, t.zoom < 2 ^ 8 → t.x < 2 ^ 32 → t.y < 2 ^ 32 →
      Tile.fromStr (Tile.display t) = .ok t) ∧
    (∀ b : BBox, b.min_x.representable → b.min_y.representable →
      b.max_x.representable → b.max_y.representable →
      BBox.fromStr (BBox.display b) = .ok b ∧ BBox.beq b b = true) :=
  ⟨tile_roundtrip, bbox_roundtrip⟩

/-- Witness for C5 at the tile `7/67/43` and the box
`(1, -1, inf, 42.5)` (whose fields are representable `f64` values). -/
theorem c5_text_roundtrip_witness :
    Tile.fromStr (Tile.display ⟨7, 67, 43⟩) = .ok ⟨7, 67, 43⟩ ∧
    BBox.fromStr (BBox.display
        (BBox.new (.finite 1) (.finite (-1)) .inf (.finite (85 / 2)))) =
      .ok (BBox.new (.finite 1) (.finite (-1)) .inf (.finite (85 / 2))) := by
  have hq1 : (F64.finite 1).representable := by
    show dyadic 1
    unfold dyadic
    norm_num [log2_one_eq]
  have hq2 : (F64.finite (-1)).representable := by
    show dyadic (-1)
    unfold dyadic
    norm_num [log2_one_eq]
  have hq3 : (F64.inf).representable := trivial
  have hq4 : (F64.finite (85 / 2)).representable := by
    show dyadic (85 / 2)
    unfold dyadic
    norm_num [log2_two_eq]
  exact ⟨c5_text_roundtrip.1 ⟨7, 67, 43⟩ (by norm_num) (by norm_num) (by norm_num),
    (c5_text_roundtrip.2 _ hq1 hq2 hq3 hq4).1⟩

/-- C9: the two parsers fail exactly as claimed.  `Tile` parsing returns
the single undifferentiated invalid-format error for every failing input
(wrong `splitn(3, '/')` field count, or any field failing unsigned-integer
parse) and succeeds otherwise; `BBox` parsing returns the distinct
wrong-field-count error exactly when the comma-split field count is not 4,
otherwise wraps the first failing whitespace-trimmed field's float-parse
error in `parseFloatError`, and succeeds when all four fields parse. -/
theorem c9_parse_error_surface :
    (∀ cs : List Char,
      ((splitnChar 3 '/' cs).length ≠ 3 → Tile.fromStr cs = .error .parseError) ∧
      (∀ e, Tile.fromStr cs = .error e → e = .parseError) ∧
      (∀ a b c, splitnChar 3 '/' cs = [a, b, c] →
        ((parseUInt (2 ^ 8) a = none ∨ parseUInt (2 ^ 32) b = none ∨
            parseUInt (2 ^ 32) c = none) →
          Tile.fromStr cs = .error .parseError) ∧
        (∀ z x y, parseUInt (2 ^ 8) a = some z → parseUInt (2 ^ 32) b = some x →
          parseUInt (2 ^ 32) c = some y →
          Tile.fromStr cs = .ok { zoom := z, x := x, y := y }))) ∧
    (∀ cs : List Char,
      (BBox.fromStr cs = .error .numberOfElementsError ↔
        ((splitChar ',' cs).map trimChars).length ≠ 4) ∧
      (∀ a b c d, (splitChar ',' cs).map trimChars = [a, b, c, d] →
        ((parseF64 a = .error .invalidFloat ∨ parseF64 b = .error .invalidFloat ∨
            parseF64 c = .error .invalidFloat ∨ parseF64 d = .error .invalidFloat) →
          BBox.fromStr cs = .error (.parseFloatError .invalidFloat)) ∧
        (∀ va vb vc vd, parseF64 a = .ok va → parseF64 b = .ok vb →
          parseF64 c = .ok vc → parseF64 d = .ok vd →
          BBox.fromStr cs = .ok (BBox.new va vb vc vd)))) := by
  constructor
  · intro cs
    refine ⟨?_, ?_, ?_⟩
    · intro hlen
      unfold Tile.fromStr
      cases hp : splitnChar 3 '/' cs with
      | nil => rfl
      | cons a l1 =>
        cases l1 with
        | nil => rfl
        | cons b l2 =>
          cases l2 with
          | nil => rfl
          | cons c l3 =>
            cases l3 with
            | nil => exact absurd (by rw [hp]; rfl) hlen
            | cons d l4 => rfl
    · intro e _
      cases e
      rfl
    · intro a b c hp
      constructor
      · intro hfail
        rw [tile_fromStr_three cs a b c hp]
        rcases hfail with h | h | h
        · rw [h]
        · rw [h]
          cases parseUInt (2 ^ 8) a <;> rfl
        · rw [h]
          cases parseUInt (2 ^ 8) a <;> cases parseUInt (2 ^ 32) b <;> rfl
      · intro z x y hz hx hy
        rw [tile_fromStr_three cs a b c hp, hz, hx, hy]
  · intro cs
    constructor
    · constructor
      · intro herr hlen
        cases hp : (splitChar ',' cs).map trimChars with
        | nil => rw [hp] at hlen; simp at hlen
        | cons a l1 =>
          cases l1 with
          | nil => rw [hp] at hlen; simp at hlen
          | cons b l2 =>
            cases l2 with
            | nil => rw [hp] at hlen; simp at hlen
            | cons c l3 =>
              cases l3 with
              | nil => rw [hp] at hlen; simp at hlen
              | cons d l4 =>
                cases l4 with
                | nil =>
                  rw [bbox_fromStr_four cs a b c d hp] at herr
                  cases ha : parseF64 a <;> rw [ha] at herr
                  case error e => simp at herr
                  case ok va =>
                    cases hb : parseF64 b <;> rw [hb] at herr
                    case error e => simp at herr
                    case ok vb =>
                      cases hc2 : parseF64 c <;> rw [hc2] at herr
                      case error e => simp at herr
                      case ok vc =>
                        cases hd2 : parseF64 d <;> rw [hd2] at herr <;>
                          simp at herr
                | cons e l5 =>
                  rw [hp] at hlen
                  simp only [List.length_cons] at hlen
                  omega
      · intro hlen
        unfold BBox.fromStr
        cases hp : (splitChar ',' cs).map trimChars with
        | nil => rfl
        | cons a l1 =>
          cases l1 with
          | nil => rfl
          | cons b l2 =>
            cases l2 with
            | nil => rfl
            | cons c l3 =>
              cases l3 with
              | nil => rfl
              | cons d l4 =>
                cases l4 with
                | nil => exact absurd (by rw [hp]; rfl) hlen
                | cons e l5 => rfl
    · intro a b c d hp
      constructor
      · intro hfail
        rw [bbox_fromStr_four cs a b c d hp]
        cases ha : parseF64 a with
        | error e => cases e; rfl
        | ok va =>
          cases hb : parseF64 b with
          | error e => cases e; rfl
          | ok vb =>
            cases hc2 : parseF64 c with
            | error e => cases e; rfl
            | ok vc =>
              cases hd2 : parseF64 d with
              | error e => cases e; rfl
              | ok vd =>
                rcases hfail with h | h | h | h
                · rw [ha] at h; cases h
                · rw [hb] at h; cases h
                · rw [hc2] at h; cases h
                · rw [hd2] at h; cases h
      · intro va vb vc vd ha hb hc2 hd2
        rw [bbox_fromStr_four cs a b c d hp, ha, hb, hc2, hd2]

/-- Witness for C9 at concrete inputs exercising the success, the tile
format error, the wrong-field-count error and the wrapped float error. -/
theorem c9_parse_error_surface_witness :
    Tile.fromStr ['3', '/', '1', '/', '2'] = .ok { zoom := 3, x := 1, y := 2 } ∧
    Tile.fromStr ['x'] = .error .parseError ∧
    BBox.fromStr ['1'] = .error .numberOfElementsError ∧
    BBox.fromStr ['x', ',', '1', ',', '2', ',', '3'] =
      .error (.parseFloatError .invalidFloat) :=
  ⟨((c9_parse_error_surface.1 ['3', '/', '1', '/', '2']).2.2 ['3'] ['1'] ['2']
      (by decide)).2 3 1 2 (by decide) (by decide) (by decide),
   (c9_parse_error_surface.1 ['x']).1 (by decide),
   (c9_parse_error_surface.2 ['1']).1.mpr (by decide),
   ((c9_parse_error_surface.2 ['x', ',', '1', ',', '2', ',', '3']).2
      ['x'] ['1'] ['2'] ['3'] (by decide)).1 (Or.inl rfl)⟩

end Maptile